import Mathlib

/-!
# RandomPicker.go: weighted sampling without replacement and weight adaptation

A shallow embedding of `src/RandomPicker.go`.

* Go `int` is the 64-bit signed integer: a value is an `Int` of `[-2^63, 2^63)`, and the
  running total of the weights, the one sum of the program that can leave that range on
  an input of the data model, wraps around (`wrapInt64`). The steps by one on a weight or
  a click counter are left unwrapped: a trial that reaches them has completed a ranking,
  which it cannot do unless the weights sum to less than `2^63`
  (`offerLoop_ok_sum_lt`), and a counter grows by at most two per trial.
* Go slices are modelled by `List`; `map[string]int` by an association list read with
  default `0`; `map[string]float64` by a total function.
* A Go runtime panic is an `Except.error` carrying a `Fault`.
* The random source is a stream of raw values, one per call of `rand.Intn` /
  `rand.Float64`; `rand.Intn n` reduces the raw value into `[0, n)`.
* `float64` is kept abstract (`Float64Ops`): the program only converts integers,
  divides and compares.
* The `for len(remainingOffers) > 0` loop takes an iteration budget; it is shown never to
  need more than `len(choices)` iterations.
* The ranking generator is embedded a second time on a heap of backing arrays, to account
  for the memory it writes; the two embeddings are shown to agree.
-/

namespace RandomPicker

/-! ## Data model -/

/-- Choice represents an item with a weight (`type Choice struct`). -/
structure Choice where
  Item : String
  Weight : Int
deriving DecidableEq, Repr

/-- WeightedRandomPicker handles the weighted random picking. -/
structure WeightedRandomPicker where
  choices : List Choice
  cumSum : List Int
  total : Int
deriving DecidableEq, Repr

/-- Abnormal terminations: the two Go runtime panics the program can raise, the
exhaustion of the iteration budget of the embedded `for` loop, and, for comparison with
the spec, the error that the spec asks of the sampler. -/
inductive Fault where
  /-- Go: `panic("invalid argument to Intn")`, raised by `rand.Intn(n)` when `n <= 0`. -/
  | intnInvalidArgument
  /-- Go: `index out of range`, raised by `offerList[i]`. -/
  | indexOutOfRange
  /-- The embedding ran out of loop iterations (no Go counterpart). -/
  | outOfFuel
  /-- The `InvalidInput` error of the spec (section 7), reported to the caller by a
  sampler that checks its precondition. No statement of the program raises it. -/
  | invalidInput
deriving DecidableEq, Repr

deriving instance DecidableEq for Except

/-! ## Weighted sampler -/

/-- The value that a Go `int` holds after an operation whose exact result is `x`: `x`
reduced into `[-2^63, 2^63)` by wrap-around (two's complement, 64 bits). -/
def wrapInt64 (x : Int) : Int :=
  (x + 9223372036854775808) % 18446744073709551616 - 9223372036854775808

/-- The loop `for i, choice := range choices { total += choice.Weight; cumSum[i] = total }`
started with running total `total`: the entries written to `cumSum` and the final total.
The addition `total += choice.Weight` is that of Go `int` and wraps around. -/
def sumLoop : Int → List Choice → List Int × Int
  | total, [] => ([], total)
  | total, choice :: rest =>
    let r := sumLoop (wrapInt64 (total + choice.Weight)) rest
    (wrapInt64 (total + choice.Weight) :: r.1, r.2)

/-- NewWeightedRandomPicker creates a new WeightedRandomPicker. -/
def NewWeightedRandomPicker (choices : List Choice) : WeightedRandomPicker :=
  let r := sumLoop 0 choices
  { choices := choices, cumSum := r.1, total := r.2 }

/-- Go `rand.Intn(n)`: panics when `n <= 0`, otherwise a value of `[0, n)` determined by
the state of the generator, here the raw value `raw`. -/
def Intn (raw : Int) (n : Int) : Except Fault Int :=
  if n ≤ 0 then .error .intnInvalidArgument else .ok (raw % n)

/-- The loop `for i, sum := range p.cumSum { if r < sum { return p.choices[i].Item } }`
followed by `return ""`, entered at index `i` with the rest of `cumSum`. -/
def pickScan (choices : List Choice) (r : Int) : Nat → List Int → Except Fault String
  | _, [] => .ok ""
  | i, sum :: rest =>
    if r < sum then
      match choices[i]? with
      | some c => .ok c.Item
      | none => .error .indexOutOfRange
    else pickScan choices r (i + 1) rest

/-- Pick randomly picks an item based on weight. The generator is reseeded from the clock
and asked once, `r := rand.Intn(p.total)`; `raw` is the raw value behind that call. -/
def Pick (p : WeightedRandomPicker) (raw : Int) : Except Fault String :=
  match Intn raw p.total with
  | .error e => .error e
  | .ok r => pickScan p.choices r 0 p.cumSum

/-- The identifier owning the draw `r` when the exact running total before the list is
`total`: the half-open interval rule read off the list of choices itself, in exact
integers (used to count draws). -/
def ownerOf (r : Int) : Int → List Choice → String
  | _, [] => ""
  | total, choice :: rest =>
    if r < total + choice.Weight then choice.Item
    else ownerOf r (total + choice.Weight) rest

/-! ## Ranking generator -/

/-- The inner loop of `GenerateNonRepeatingOffers`: drop the first entry whose `Item`
equals `selectedOffer` (`append(remainingOffers[:i], remainingOffers[i+1:]...)`, `break`);
the list is left as it is when no entry matches. -/
def removeSelected (selectedOffer : String) : List Choice → List Choice
  | [] => []
  | offer :: rest =>
    if offer.Item = selectedOffer then rest else offer :: removeSelected selectedOffer rest

/-- The variables of the ranking loop: the remainder, the output built so far and the
number of calls made to the sampler (which is the number of draws consumed). -/
structure OfferLoopState where
  remainingOffers : List Choice
  selectedOffers : List String
  calls : Nat
deriving DecidableEq, Repr

/-- One execution of the body of `for len(remainingOffers) > 0 { ... }`. -/
def offerLoopBody (rng : Nat → Int) (s : OfferLoopState) : Except Fault OfferLoopState :=
  let picker := NewWeightedRandomPicker s.remainingOffers
  match Pick picker (rng s.calls) with
  | .error e => .error e
  | .ok selectedOffer =>
    .ok { remainingOffers := removeSelected selectedOffer s.remainingOffers,
          selectedOffers := s.selectedOffers ++ [selectedOffer],
          calls := s.calls + 1 }

/-- The loop `for len(remainingOffers) > 0 { ... }` with a budget of `fuel` iterations. -/
def offerLoop (rng : Nat → Int) : Nat → OfferLoopState → Except Fault OfferLoopState
  | 0, s => if s.remainingOffers.length > 0 then .error .outOfFuel else .ok s
  | fuel + 1, s =>
    if s.remainingOffers.length > 0 then
      match offerLoopBody rng s with
      | .error e => .error e
      | .ok s' => offerLoop rng fuel s'
    else .ok s

/-- The state in which `GenerateNonRepeatingOffers` enters its loop: `selectedOffers` is
nil and `remainingOffers` is a copy of `choices`. -/
def offerLoopInit (choices : List Choice) : OfferLoopState :=
  { remainingOffers := choices, selectedOffers := [], calls := 0 }

/-- GenerateNonRepeatingOffers generates a non-repeating list of offers; `rng k` is the
raw value behind the `k`-th call of `rand.Intn`, `fuel` bounds the loop iterations. -/
def GenerateNonRepeatingOffers (choices : List Choice) (rng : Nat → Int) (fuel : Nat) :
    Except Fault (List String) :=
  match offerLoop rng fuel (offerLoopInit choices) with
  | .error e => .error e
  | .ok s => .ok s.selectedOffers

/-- The loop variables after `k` iterations of `for len(remainingOffers) > 0`, when each of
them is entered and none faults. -/
def offerLoopAfter (rng : Nat → Int) : Nat → OfferLoopState → Option OfferLoopState
  | 0, s => some s
  | k + 1, s =>
    if s.remainingOffers.length > 0 then
      match offerLoopBody rng s with
      | .error _ => none
      | .ok s' => offerLoopAfter rng k s'
    else none

/-! ## Adaptive simulator -/

/-- The operations of Go `float64` that the program uses. The carrier is left abstract;
the one law assumed, asymmetry of `<`, holds for IEEE 754 comparison (NaN included).
Go `x > y` is `lt y x`. -/
structure Float64Ops where
  /-- The values of type `float64`. -/
  F : Type
  /-- The conversion `float64(n)` of an `int`. -/
  ofInt : Int → F
  /-- The quotient `x / y`. -/
  div : F → F → F
  /-- The comparison `x < y`. -/
  lt : F → F → Bool
  /-- The constant `0.3`. -/
  lit03 : F
  /-- The constant `0.5`. -/
  lit05 : F
  /-- Asymmetry of `<`. -/
  lt_asymm : ∀ a b, lt a b = true → lt b a = false

/-- The process-wide random source: what the `k`-th call returns, as a raw value when the
call is `rand.Intn` and as a `float64` of `[0, 1)` when it is `rand.Float64`. -/
structure RandSource (O : Float64Ops) where
  intn : Nat → Int
  float64 : Nat → O.F

/-- Read `clickCounts[key]`: the zero value when the key is absent. -/
def clickCountsGet : List (String × Int) → String → Int
  | [], _ => 0
  | (k, v) :: rest, key => if k = key then v else clickCountsGet rest key

/-- The statement `clickCounts[key]++`: the key is inserted when absent. -/
def clickCountsIncr : List (String × Int) → String → List (String × Int)
  | [], key => [(key, 1)]
  | (k, v) :: rest, key =>
    if k = key then (k, v + 1) :: rest else (k, v) :: clickCountsIncr rest key

/-- The initial value of `clickCounts`. -/
def initialClickCounts : List (String × Int) :=
  [("A", 0), ("B", 0), ("C", 0), ("D", 0)]

/-- The expression
`clickCounts["A"] + clickCounts["B"] + clickCounts["C"] + clickCounts["D"]`. -/
def totalClicks (clickCounts : List (String × Int)) : Int :=
  clickCountsGet clickCounts "A" + clickCountsGet clickCounts "B" +
    clickCountsGet clickCounts "C" + clickCountsGet clickCounts "D"

/-- Lines 84-95: read the top two offers and record the simulated clicks. `calls` is the
number of calls made to the random source before; the result carries the number after. -/
def recordClicks (O : Float64Ops) (src : RandSource O) (offerList : List String)
    (clickCounts : List (String × Int)) (calls : Nat) :
    Except Fault (List (String × Int) × Nat) :=
  match offerList[0]? with
  | none => .error .indexOutOfRange
  | some clickedFirst =>
    if O.lt (src.float64 calls) O.lit03 then
      let clickCounts1 := clickCountsIncr clickCounts clickedFirst
      match offerList[1]? with
      | none => .error .indexOutOfRange
      | some clickedSecond =>
        if O.lt (src.float64 (calls + 1)) O.lit05 then
          .ok (clickCountsIncr clickCounts1 clickedSecond, calls + 2)
        else .ok (clickCounts1, calls + 2)
    else .ok (clickCounts, calls + 1)

/-- The body of `for j := range choices` (lines 101-111) applied to `choices[j]`. -/
def adjustWeight (O : Float64Ops) (clickCounts : List (String × Int))
    (targetRatios : String → O.F) (totalClicks : Int) (c : Choice) : Choice :=
  let actualRatio := O.div (O.ofInt (clickCountsGet clickCounts c.Item)) (O.ofInt totalClicks)
  let targetRatio := targetRatios c.Item
  if O.lt actualRatio targetRatio then { c with Weight := c.Weight + 1 }
  else if O.lt targetRatio actualRatio then
    if c.Weight > 1 then { c with Weight := c.Weight - 1 } else c
  else c

/-- Lines 98-113: the guarded adjustment of every weight of the persistent list. -/
def adjustWeights (O : Float64Ops) (clickCounts : List (String × Int))
    (targetRatios : String → O.F) (choices : List Choice) : List Choice :=
  if totalClicks clickCounts > 0 then
    choices.map (adjustWeight O clickCounts targetRatios (totalClicks clickCounts))
  else choices

/-- The variables that live across the trials of `SimulateClicks`. -/
structure SimState where
  choices : List Choice
  clickCounts : List (String × Int)
  calls : Nat
deriving DecidableEq, Repr

/-- One iteration of `for i := 0; i < iterations; i++` (lines 83-113). The ranking loop
is given `len(choices)` iterations, which is always enough: it never exhausts them
(`offerLoop_never_outOfFuel`) and more would change nothing (`offerLoop_fuel_irrelevant`). -/
def trial (O : Float64Ops) (src : RandSource O) (targetRatios : String → O.F)
    (s : SimState) : Except Fault SimState :=
  match GenerateNonRepeatingOffers s.choices (fun k => src.intn (s.calls + k))
      s.choices.length with
  | .error e => .error e
  | .ok offerList =>
    match recordClicks O src offerList s.clickCounts (s.calls + offerList.length) with
    | .error e => .error e
    | .ok (clickCounts, calls) =>
      .ok { choices := adjustWeights O clickCounts targetRatios s.choices,
            clickCounts := clickCounts,
            calls := calls }

/-- The loop `for i := 0; i < iterations; i++` run for `n` iterations. -/
def trialLoop (O : Float64Ops) (src : RandSource O) (targetRatios : String → O.F) :
    Nat → SimState → Except Fault SimState
  | 0, s => .ok s
  | n + 1, s =>
    match trial O src targetRatios s with
    | .error e => .error e
    | .ok s' => trialLoop O src targetRatios n s'

/-- SimulateClicks simulates user clicks and adjusts weights based on the click data. The
result is the state that the final report prints: click counts and adjusted weights. -/
def SimulateClicks (O : Float64Ops) (src : RandSource O) (choices : List Choice)
    (targetRatios : String → O.F) (iterations : Int) : Except Fault SimState :=
  trialLoop O src targetRatios iterations.toNat
    { choices := choices, clickCounts := initialClickCounts, calls := 0 }

/-- Lines 124-129: the final click ratios, one per item of the list, each
`float64(clickCounts[choice.Item]) / float64(totalClicks)`. -/
def finalRatios (O : Float64Ops) (s : SimState) : List O.F :=
  s.choices.map (fun choice =>
    O.div (O.ofInt (clickCountsGet s.clickCounts choice.Item))
      (O.ofInt (totalClicks s.clickCounts)))

/-- The sum of the counters of all identifiers that have a counter in `clickCounts`. -/
def sumCounters (clickCounts : List (String × Int)) : Int :=
  (clickCounts.map Prod.snd).sum

/-! ## The ranking generator on explicit memory

The same function with Go's slices spelled out, to account for what it writes: a heap of
backing arrays, and slice headers (all slices of the function start at offset 0). -/

/-- A slice header: the address of the backing array and the length. -/
structure Slice where
  addr : Nat
  len : Nat
deriving DecidableEq, Repr

/-- The elements a slice shows. -/
def sliceView (heap : List (List Choice)) (s : Slice) : List Choice :=
  (heap.getD s.addr []).take s.len

/-- The allocation `make([]Choice, n)`: a fresh zeroed backing array. -/
def makeSlice (heap : List (List Choice)) (n : Nat) : List (List Choice) × Slice :=
  (heap ++ [List.replicate n ⟨"", 0⟩], ⟨heap.length, n⟩)

/-- The builtin `copy(dst, src)`. -/
def copySlice (heap : List (List Choice)) (dst src : Slice) : List (List Choice) :=
  let n := min dst.len src.len
  heap.set dst.addr ((sliceView heap src).take n ++ (heap.getD dst.addr []).drop n)

/-- The index at which `for i, offer := range remainingOffers` finds `offer.Item ==
selectedOffer`, if it does; `i` is the index of the head of the list. -/
def findSelected (selectedOffer : String) : Nat → List Choice → Option Nat
  | _, [] => none
  | i, offer :: rest =>
    if offer.Item = selectedOffer then some i else findSelected selectedOffer (i + 1) rest

/-- The assignment `remainingOffers = append(remainingOffers[:i], remainingOffers[i+1:]...)`:
the tail is moved one place down inside the backing array of `remainingOffers`. -/
def appendRemove (heap : List (List Choice)) (remainingOffers : Slice) (i : Nat) :
    List (List Choice) × Slice :=
  let arr := heap.getD remainingOffers.addr []
  (heap.set remainingOffers.addr
      (arr.take i ++ (arr.take remainingOffers.len).drop (i + 1)
        ++ arr.drop (remainingOffers.len - 1)),
    ⟨remainingOffers.addr, remainingOffers.len - 1⟩)

/-- The variables of the ranking loop, on explicit memory. -/
structure OfferMemState where
  heap : List (List Choice)
  remainingOffers : Slice
  selectedOffers : List String
  calls : Nat

/-- One execution of the loop body, on explicit memory. -/
def offerMemBody (rng : Nat → Int) (s : OfferMemState) : Except Fault OfferMemState :=
  let picker := NewWeightedRandomPicker (sliceView s.heap s.remainingOffers)
  match Pick picker (rng s.calls) with
  | .error e => .error e
  | .ok selectedOffer =>
    let r := match findSelected selectedOffer 0 (sliceView s.heap s.remainingOffers) with
      | some i => appendRemove s.heap s.remainingOffers i
      | none => (s.heap, s.remainingOffers)
    .ok { heap := r.1, remainingOffers := r.2,
          selectedOffers := s.selectedOffers ++ [selectedOffer],
          calls := s.calls + 1 }

/-- The ranking loop on explicit memory. A fault leaves the heap as it was when raised. -/
def offerMemLoop (rng : Nat → Int) :
    Nat → OfferMemState → Except Fault (List String) × List (List Choice)
  | 0, s => if s.remainingOffers.len > 0 then (.error .outOfFuel, s.heap)
            else (.ok s.selectedOffers, s.heap)
  | fuel + 1, s =>
    if s.remainingOffers.len > 0 then
      match offerMemBody rng s with
      | .error e => (.error e, s.heap)
      | .ok s' => offerMemLoop rng fuel s'
    else (.ok s.selectedOffers, s.heap)

/-- `GenerateNonRepeatingOffers` on explicit memory: the result and the heap afterwards. -/
def GenerateNonRepeatingOffersMem (heap : List (List Choice)) (choices : Slice)
    (rng : Nat → Int) (fuel : Nat) : Except Fault (List String) × List (List Choice) :=
  let m := makeSlice heap choices.len
  let heap1 := copySlice m.1 m.2 choices
  offerMemLoop rng fuel
    { heap := heap1, remainingOffers := m.2, selectedOffers := [], calls := 0 }

/-- The loop variables that a state on explicit memory stands for. -/
def viewState (s : OfferMemState) : OfferLoopState :=
  { remainingOffers := sliceView s.heap s.remainingOffers,
    selectedOffers := s.selectedOffers,
    calls := s.calls }

/-! ## Concrete inputs -/

/-- The dataset of `main`. -/
def mainChoices : List Choice :=
  [⟨"A", 4⟩, ⟨"B", 2⟩, ⟨"C", 2⟩, ⟨"D", 1⟩]

/-- A random source that replays the given raw values, then zeros. -/
def replay (draws : List Int) : Nat → Int := fun k => draws.getD k 0

/-- Exact fractions `(numerator, denominator)` as an interpretation of the `float64`
operations; the comparison cross-multiplies, which is the order of the fractions when the
denominators are positive. -/
def fracOps : Float64Ops where
  F := Int × Int
  ofInt := fun n => (n, 1)
  div := fun x y => (x.1 * y.2, x.2 * y.1)
  lt := fun x y => decide (x.1 * y.2 < y.1 * x.2)
  lit03 := (3, 10)
  lit05 := (1, 2)
  lt_asymm := by
    intro a b h
    simp only [decide_eq_true_eq, decide_eq_false_iff_not, not_lt] at h ⊢
    exact le_of_lt h

/-- The target table of `main`: 4/9, 2/9, 2/9, 1/9. -/
def mainTargets : String → Int × Int := fun key =>
  if key = "A" then (4, 9) else if key = "B" then (2, 9) else if key = "C" then (2, 9)
  else if key = "D" then (1, 9) else (0, 1)

/-- A random source over `fracOps`: the raw values 4, 0, 2, 0 and then zeros for
`rand.Intn`; for `rand.Float64` the values 1/10 at call 4 and 1/5 at call 5, and 9/10 at
every other call. -/
def mainSource : RandSource fracOps where
  intn := replay [4, 0, 2, 0]
  float64 := fun k => if k = 4 then (1, 10) else if k = 5 then (1, 5) else (9, 10)

/-- A random source over `fracOps` whose every `rand.Float64` is 9/10: no click. -/
def quietSource : RandSource fracOps where
  intn := replay [4, 0, 2, 0]
  float64 := fun _ => (9, 10)

/-- Two items of weight at least 1 whose weights sum to `2^63`: A has the largest value
of a Go `int`, `2^63 - 1`. -/
def overflowChoices : List Choice :=
  [⟨"A", 9223372036854775807⟩, ⟨"B", 1⟩]

/-- Four items without a negative weight whose running total wraps around twice: the
weights are 5, `2^63 - 1`, `2^63 - 1` and 10. -/
def wrappedChoices : List Choice :=
  [⟨"A", 5⟩, ⟨"B", 9223372036854775807⟩, ⟨"C", 9223372036854775807⟩, ⟨"D", 10⟩]

/-- The list `overflowChoices` followed by an item of weight 0. -/
def overflowZeroChoices : List Choice :=
  [⟨"A", 9223372036854775807⟩, ⟨"B", 1⟩, ⟨"C", 0⟩]

/-- A list with an item outside the identifiers A, B, C, D. -/
def untrackedChoices : List Choice :=
  [⟨"A", 1⟩, ⟨"E", 1⟩]

/-- A random source over `fracOps` whose every raw value for `rand.Intn` is 1 and whose
every `rand.Float64` is 1/10, except 9/10 at call 7. -/
def untrackedSource : RandSource fracOps where
  intn := fun _ => 1
  float64 := fun k => if k = 7 then (9, 10) else (1, 10)

/-! ## Wrap-around -/

theorem wrapInt64_of_fits (x : Int) (h0 : -9223372036854775808 ≤ x)
    (h1 : x < 9223372036854775808) : wrapInt64 x = x := by
  unfold wrapInt64
  omega

theorem wrapInt64_add (a b : Int) : wrapInt64 (wrapInt64 a + b) = wrapInt64 (a + b) := by
  unfold wrapInt64
  omega

theorem wrapInt64_range (x : Int) :
    -9223372036854775808 ≤ wrapInt64 x ∧ wrapInt64 x < 9223372036854775808 := by
  unfold wrapInt64
  omega

/-! ## The cumulative table -/

theorem sum_weights_nonneg (cs : List Choice) (h0 : ∀ c ∈ cs, 0 ≤ c.Weight) :
    0 ≤ (cs.map Choice.Weight).sum := by
  apply List.sum_nonneg
  intro x hx
  obtain ⟨d, hd, rfl⟩ := List.mem_map.1 hx
  exact h0 d hd

theorem sumLoop_fst_length (cs : List Choice) (t : Int) :
    (sumLoop t cs).1.length = cs.length := by
  induction cs generalizing t with
  | nil => simp [sumLoop]
  | cons c cs ih => simp [sumLoop, ih]

/-- The entry of the table at index `k` is the running total after item `k`, wrapped. -/
theorem sumLoop_fst_getElem?_wrap (cs : List Choice) (t : Int) (k : Nat)
    (hk : k < cs.length) :
    (sumLoop t cs).1[k]? = some (wrapInt64 (t + ((cs.take (k + 1)).map Choice.Weight).sum)) := by
  induction cs generalizing t k with
  | nil => simp at hk
  | cons c cs ih =>
    cases k with
    | zero => simp [sumLoop]
    | succ k =>
      have hk' : k < cs.length := by simpa using hk
      simp only [sumLoop, List.getElem?_cons_succ, List.take_succ_cons, List.map_cons,
        List.sum_cons]
      rw [ih _ _ hk', wrapInt64_add, add_assoc]

/-- The final total is the sum of the weights, wrapped. -/
theorem sumLoop_snd_wrap (cs : List Choice) (t : Int) (ht : wrapInt64 t = t) :
    (sumLoop t cs).2 = wrapInt64 (t + (cs.map Choice.Weight).sum) := by
  induction cs generalizing t with
  | nil => simp [sumLoop, ht]
  | cons c cs ih =>
    have hidem : wrapInt64 (wrapInt64 (t + c.Weight)) = wrapInt64 (t + c.Weight) := by
      have := wrapInt64_range (t + c.Weight)
      exact wrapInt64_of_fits _ this.1 this.2
    simp only [sumLoop, ih _ hidem, wrapInt64_add, List.map_cons, List.sum_cons, add_assoc]

theorem total_eq_wrap (choices : List Choice) :
    (NewWeightedRandomPicker choices).total
      = wrapInt64 ((choices.map Choice.Weight).sum) := by
  have := sumLoop_snd_wrap choices 0 (by decide)
  simpa [NewWeightedRandomPicker] using this

theorem cumSum_getElem?_wrap (choices : List Choice) (k : Nat) (hk : k < choices.length) :
    (NewWeightedRandomPicker choices).cumSum[k]?
      = some (wrapInt64 (((choices.take (k + 1)).map Choice.Weight).sum)) := by
  have := sumLoop_fst_getElem?_wrap choices 0 k hk
  simpa [NewWeightedRandomPicker] using this

theorem cumSum_length (choices : List Choice) :
    (NewWeightedRandomPicker choices).cumSum.length = choices.length := by
  simp [NewWeightedRandomPicker, sumLoop_fst_length]

theorem sum_take_le_sum_take (cs : List Choice) (h0 : ∀ c ∈ cs, 0 ≤ c.Weight) (i j : Nat)
    (hij : i ≤ j) :
    ((cs.take i).map Choice.Weight).sum ≤ ((cs.take j).map Choice.Weight).sum := by
  induction cs generalizing i j with
  | nil => simp
  | cons c cs ih =>
    cases i with
    | zero =>
      simp only [List.take_zero, List.map_nil, List.sum_nil]
      apply List.sum_nonneg
      intro x hx
      obtain ⟨d, hd, rfl⟩ := List.mem_map.1 hx
      exact h0 d (List.mem_of_mem_take hd)
    | succ i =>
      cases j with
      | zero => omega
      | succ j =>
        have := ih (fun d hd => h0 d (List.mem_cons_of_mem _ hd)) i j (by omega)
        simpa using this

/-- A running total of non-negative weights lies between 0 and the sum of all weights. -/
theorem sum_take_bounds (cs : List Choice) (h0 : ∀ c ∈ cs, 0 ≤ c.Weight) (i : Nat) :
    0 ≤ ((cs.take i).map Choice.Weight).sum ∧
    ((cs.take i).map Choice.Weight).sum ≤ (cs.map Choice.Weight).sum := by
  constructor
  · exact sum_weights_nonneg _ (fun c hc => h0 c (List.mem_of_mem_take hc))
  · by_cases hi : i ≤ cs.length
    · have := sum_take_le_sum_take cs h0 i cs.length hi
      simpa using this
    · rw [List.take_of_length_le (by omega)]

/-- Without a negative weight and with a sum below `2^63` the total is the exact sum. -/
theorem total_eq (choices : List Choice) (h0 : ∀ c ∈ choices, 0 ≤ c.Weight)
    (hfit : (choices.map Choice.Weight).sum < 9223372036854775808) :
    (NewWeightedRandomPicker choices).total = (choices.map Choice.Weight).sum := by
  rw [total_eq_wrap]
  have := sum_weights_nonneg choices h0
  exact wrapInt64_of_fits _ (by omega) hfit

/-- Without a negative weight and with a sum below `2^63` every entry of the table is the
exact running total. -/
theorem cumSum_getElem? (choices : List Choice) (h0 : ∀ c ∈ choices, 0 ≤ c.Weight)
    (hfit : (choices.map Choice.Weight).sum < 9223372036854775808) (k : Nat)
    (hk : k < choices.length) :
    (NewWeightedRandomPicker choices).cumSum[k]?
      = some (((choices.take (k + 1)).map Choice.Weight).sum) := by
  rw [cumSum_getElem?_wrap choices k hk]
  have := sum_take_bounds choices h0 (k + 1)
  rw [wrapInt64_of_fits _ (by omega) (by omega)]

/-! ## The scan of `Pick` -/

/-- The scan stops at the first table entry above `r` and returns the item at that index. -/
theorem pickScan_first (choices : List Choice) (r : Int) (cs : List Int) (i : Nat)
    (hex : ∃ s ∈ cs, r < s) (hlen : i + cs.length ≤ choices.length) :
    ∃ k c, choices[i + k]? = some c ∧ pickScan choices r i cs = .ok c.Item ∧
      (∃ s, cs[k]? = some s ∧ r < s) ∧ ∀ m, m < k → ∀ s, cs[m]? = some s → s ≤ r := by
  induction cs generalizing i with
  | nil => simp at hex
  | cons a cs ih =>
    by_cases hra : r < a
    · have hi : i < choices.length := by simp at hlen; omega
      refine ⟨0, choices[i], by simp [hi], ?_, ⟨a, by simp, hra⟩, by intro m hm; omega⟩
      simp [pickScan, hra, List.getElem?_eq_getElem hi]
    · have hex' : ∃ s ∈ cs, r < s := by
        obtain ⟨s, hs, hrs⟩ := hex
        rcases List.mem_cons.1 hs with rfl | hs
        · exact absurd hrs hra
        · exact ⟨s, hs, hrs⟩
      obtain ⟨k, c, hc, hp, hk, hbefore⟩ := ih (i + 1) hex' (by simp at hlen ⊢; omega)
      refine ⟨k + 1, c, ?_, ?_, ?_, ?_⟩
      · rw [← hc]; congr 1; omega
      · simp [pickScan, hra, hp]
      · simpa using hk
      · intro m hm s hs
        cases m with
        | zero => simp at hs; omega
        | succ m => exact hbefore m (by omega) s (by simpa using hs)

/-- With a positive total some table entry lies above every in-range draw: the last one. -/
theorem exists_cumSum_gt (choices : List Choice) (r : Int)
    (hr : r < (NewWeightedRandomPicker choices).total) (hne : choices ≠ []) :
    ∃ s ∈ (NewWeightedRandomPicker choices).cumSum, r < s := by
  have hlen : choices.length - 1 < choices.length :=
    Nat.sub_lt (List.length_pos.2 hne) Nat.one_pos
  have h := cumSum_getElem?_wrap choices (choices.length - 1) hlen
  have htake : choices.take (choices.length - 1 + 1) = choices := by
    rw [Nat.sub_add_cancel (List.length_pos.2 hne)]; exact List.take_length _
  rw [htake, ← total_eq_wrap] at h
  exact ⟨_, List.getElem?_mem h, hr⟩

theorem total_pos_ne_nil (choices : List Choice)
    (hpos : 0 < (NewWeightedRandomPicker choices).total) : choices ≠ [] := by
  rintro rfl
  simp [NewWeightedRandomPicker, sumLoop] at hpos

theorem Intn_in_range (r n : Int) (h0 : 0 ≤ r) (hn : r < n) : Intn r n = .ok r := by
  have : ¬ n ≤ 0 := by omega
  simp [Intn, this, Int.emod_eq_of_lt h0 hn]

/-- Shape of the result of `Pick` on a picker with positive total, for any raw value. -/
theorem Pick_first (choices : List Choice) (raw : Int)
    (hpos : 0 < (NewWeightedRandomPicker choices).total) :
    ∃ (k : Nat) (c : Choice), choices[k]? = some c ∧
      Pick (NewWeightedRandomPicker choices) raw = .ok c.Item ∧
      (∃ s, (NewWeightedRandomPicker choices).cumSum[k]? = some s ∧
        raw % (NewWeightedRandomPicker choices).total < s) ∧
      ∀ m, m < k → ∀ s, (NewWeightedRandomPicker choices).cumSum[m]? = some s →
        s ≤ raw % (NewWeightedRandomPicker choices).total := by
  have hne := total_pos_ne_nil choices hpos
  have hlt := Int.emod_lt_of_pos raw hpos
  obtain ⟨k, c, hc, hp, hk, hb⟩ := pickScan_first choices _ _ 0
    (exists_cumSum_gt choices _ hlt hne)
    (by simp [cumSum_length])
  refine ⟨k, c, by simpa using hc, ?_, hk, hb⟩
  have hn : ¬ (NewWeightedRandomPicker choices).total ≤ 0 := by omega
  simp only [Pick, Intn, hn, if_false]
  exact hp

/-- The table is non-decreasing when no weight is negative and the sum is below `2^63`. -/
theorem cumSum_mono (choices : List Choice) (h0 : ∀ c ∈ choices, 0 ≤ c.Weight)
    (hfit : (choices.map Choice.Weight).sum < 9223372036854775808) (i j : Nat)
    (hij : i ≤ j) (a b : Int)
    (ha : (NewWeightedRandomPicker choices).cumSum[i]? = some a)
    (hb : (NewWeightedRandomPicker choices).cumSum[j]? = some b) : a ≤ b := by
  have hi : i < choices.length := by
    rw [← cumSum_length choices]; exact (List.getElem?_eq_some.1 ha).1
  have hj : j < choices.length := by
    rw [← cumSum_length choices]; exact (List.getElem?_eq_some.1 hb).1
  rw [cumSum_getElem? choices h0 hfit i hi] at ha
  rw [cumSum_getElem? choices h0 hfit j hj] at hb
  have := sum_take_le_sum_take choices h0 (i + 1) (j + 1) (by omega)
  simp only [Option.some.injEq] at ha hb
  omega

/-! ## Counting the draws that select an item -/

/-- While the running total stays within `[0, 2^63)` the scan follows the half-open
interval rule in exact integers. -/
theorem pickScan_eq_ownerOf (pre suf : List Choice) (t r : Int)
    (h0 : ∀ c ∈ suf, 0 ≤ c.Weight) (ht : 0 ≤ t)
    (hfit : t + (suf.map Choice.Weight).sum < 9223372036854775808) :
    pickScan (pre ++ suf) r pre.length (sumLoop t suf).1 = .ok (ownerOf r t suf) := by
  induction suf generalizing pre t with
  | nil => simp [sumLoop, pickScan, ownerOf]
  | cons c cs ih =>
    have hc0 : 0 ≤ c.Weight := h0 c (by simp)
    have hcs0 : ∀ d ∈ cs, 0 ≤ d.Weight := fun d hd => h0 d (List.mem_cons_of_mem _ hd)
    have hS := sum_weights_nonneg cs hcs0
    simp only [List.map_cons, List.sum_cons] at hfit
    have hw : wrapInt64 (t + c.Weight) = t + c.Weight :=
      wrapInt64_of_fits _ (by omega) (by omega)
    by_cases h : r < t + c.Weight
    · have hget : (pre ++ c :: cs)[pre.length]? = some c := by
        rw [List.getElem?_append_right (Nat.le_refl _)]
        simp
      simp [sumLoop, pickScan, ownerOf, h, hget, hw]
    · have := ih (pre ++ [c]) (t + c.Weight) hcs0 (by omega) (by omega)
      simp only [List.append_assoc, List.singleton_append, List.length_append,
        List.length_singleton] at this
      simp [sumLoop, pickScan, ownerOf, h, this, hw]

theorem Pick_eq_ownerOf (choices : List Choice) (h0c : ∀ c ∈ choices, 0 ≤ c.Weight)
    (hfit : (choices.map Choice.Weight).sum < 9223372036854775808) (r : Int) (h0 : 0 ≤ r)
    (hr : r < (NewWeightedRandomPicker choices).total) :
    Pick (NewWeightedRandomPicker choices) r = .ok (ownerOf r 0 choices) := by
  have h := pickScan_eq_ownerOf [] choices 0 r h0c (Int.le_refl _) (by omega)
  simp only [Pick, Intn_in_range r _ h0 hr]
  simpa [NewWeightedRandomPicker] using h

theorem ownerOf_mem (suf : List Choice) (t r : Int)
    (hr : r < t + (suf.map Choice.Weight).sum) (hne : suf ≠ []) :
    ∃ d ∈ suf, ownerOf r t suf = d.Item := by
  induction suf generalizing t with
  | nil => exact absurd rfl hne
  | cons c cs ih =>
    by_cases h : r < t + c.Weight
    · exact ⟨c, by simp, by simp [ownerOf, h]⟩
    · have hcs : cs ≠ [] := by
        rintro rfl
        simp at hr
        omega
      obtain ⟨d, hd, hown⟩ := ih (t + c.Weight) (by simp at hr; omega) hcs
      exact ⟨d, List.mem_cons_of_mem _ hd, by simp [ownerOf, h, hown]⟩

/-- Among the draws of `[t, t + sum)`, exactly `c.Weight` are owned by the item `c`. -/
theorem card_ownerOf (suf : List Choice) (t : Int) (h0 : ∀ c ∈ suf, 0 ≤ c.Weight)
    (hnd : (suf.map Choice.Item).Nodup) (c : Choice) (hc : c ∈ suf) :
    (((Finset.Ico t (t + (suf.map Choice.Weight).sum)).filter
      (fun r => ownerOf r t suf = c.Item)).card : Int) = c.Weight := by
  induction suf generalizing t with
  | nil => simp at hc
  | cons d ds ih =>
    have hd0 : 0 ≤ d.Weight := h0 d (by simp)
    have hds0 : ∀ x ∈ ds, 0 ≤ x.Weight := fun x hx => h0 x (List.mem_cons_of_mem _ hx)
    have hS : 0 ≤ (ds.map Choice.Weight).sum := sum_weights_nonneg ds hds0
    have hnd' : (ds.map Choice.Item).Nodup := (List.nodup_cons.1 (by simpa using hnd)).2
    have hdn : d.Item ∉ ds.map Choice.Item := (List.nodup_cons.1 (by simpa using hnd)).1
    have hsplit : Finset.Ico t (t + ((d :: ds).map Choice.Weight).sum)
        = Finset.Ico t (t + d.Weight)
          ∪ Finset.Ico (t + d.Weight) (t + d.Weight + (ds.map Choice.Weight).sum) := by
      rw [Finset.Ico_union_Ico_eq_Ico (by omega) (by omega)]
      simp [add_assoc]
    have hdisj : Disjoint
        ((Finset.Ico t (t + d.Weight)).filter (fun r => ownerOf r t (d :: ds) = c.Item))
        ((Finset.Ico (t + d.Weight) (t + d.Weight + (ds.map Choice.Weight).sum)).filter
          (fun r => ownerOf r t (d :: ds) = c.Item)) :=
      Finset.disjoint_filter_filter (Finset.Ico_disjoint_Ico_consecutive _ _ _)
    have hright : (Finset.Ico (t + d.Weight) (t + d.Weight + (ds.map Choice.Weight).sum)).filter
          (fun r => ownerOf r t (d :: ds) = c.Item)
        = (Finset.Ico (t + d.Weight) (t + d.Weight + (ds.map Choice.Weight).sum)).filter
          (fun r => ownerOf r (t + d.Weight) ds = c.Item) := by
      apply Finset.filter_congr
      intro r hr
      have : ¬ r < t + d.Weight := by
        have := (Finset.mem_Ico.1 hr).1
        omega
      simp [ownerOf, this]
    rw [hsplit, Finset.filter_union, Finset.card_union_eq_card_add_card.2 hdisj, hright]
    by_cases hcd : d.Item = c.Item
    · have hceq : c = d := by
        rcases List.mem_cons.1 hc with h | h
        · exact h
        · exact absurd (hcd ▸ List.mem_map_of_mem Choice.Item h) hdn
      subst hceq
      have hleft : (Finset.Ico t (t + c.Weight)).filter
          (fun r => ownerOf r t (c :: ds) = c.Item) = Finset.Ico t (t + c.Weight) := by
        apply Finset.filter_true_of_mem
        intro r hr
        have : r < t + c.Weight := (Finset.mem_Ico.1 hr).2
        simp [ownerOf, this]
      have hnone : (Finset.Ico (t + c.Weight) (t + c.Weight + (ds.map Choice.Weight).sum)).filter
          (fun r => ownerOf r (t + c.Weight) ds = c.Item) = ∅ := by
        apply Finset.filter_false_of_mem
        intro r hr hown
        have hlt := (Finset.mem_Ico.1 hr).2
        have hne : ds ≠ [] := by
          rintro rfl
          have := (Finset.mem_Ico.1 hr).1
          simp at hlt
          omega
        obtain ⟨x, hx, hxo⟩ := ownerOf_mem ds (t + c.Weight) r hlt hne
        rw [hown] at hxo
        exact hdn (hxo ▸ List.mem_map_of_mem Choice.Item hx)
      rw [hleft, hnone, Int.card_Ico]
      simp
      omega
    · have hcds : c ∈ ds := by
        rcases List.mem_cons.1 hc with h | h
        · exact absurd (h ▸ rfl) hcd
        · exact h
      have hleft : (Finset.Ico t (t + d.Weight)).filter
          (fun r => ownerOf r t (d :: ds) = c.Item) = ∅ := by
        apply Finset.filter_false_of_mem
        intro r hr
        have : r < t + d.Weight := (Finset.mem_Ico.1 hr).2
        simp [ownerOf, this, hcd]
      rw [hleft]
      simpa using ih (t + d.Weight) hds0 hnd' hcds

/-! ## The ranking loop -/

/-- Whenever `Pick` returns, it returns the identifier of a member of the working set. -/
theorem Pick_ok_mem (choices : List Choice) (raw : Int) (sel : String)
    (h : Pick (NewWeightedRandomPicker choices) raw = .ok sel) :
    ∃ c ∈ choices, c.Item = sel := by
  by_cases hpos : 0 < (NewWeightedRandomPicker choices).total
  · obtain ⟨k, c, hc, hp, _⟩ := Pick_first choices raw hpos
    rw [hp] at h
    exact ⟨c, List.getElem?_mem hc, by simpa using h⟩
  · have hle : (NewWeightedRandomPicker choices).total ≤ 0 := by omega
    simp [Pick, Intn, hle] at h

theorem Pick_ok_of_pos (choices : List Choice) (raw : Int)
    (hpos : 0 < (NewWeightedRandomPicker choices).total) :
    ∃ sel, Pick (NewWeightedRandomPicker choices) raw = .ok sel := by
  obtain ⟨k, c, _, hp, _⟩ := Pick_first choices raw hpos
  exact ⟨c.Item, hp⟩

theorem length_le_sum_weights (cs : List Choice) (h1 : ∀ c ∈ cs, 1 ≤ c.Weight) :
    (cs.length : Int) ≤ (cs.map Choice.Weight).sum := by
  induction cs with
  | nil => simp
  | cons c cs ih =>
    have := ih (fun d hd => h1 d (List.mem_cons_of_mem _ hd))
    have := h1 c (by simp)
    simp only [List.length_cons, List.map_cons, List.sum_cons]
    push_cast
    omega

theorem total_pos_of_weights (cs : List Choice) (h1 : ∀ c ∈ cs, 1 ≤ c.Weight)
    (hfit : (cs.map Choice.Weight).sum < 9223372036854775808)
    (hne : cs ≠ []) : 0 < (NewWeightedRandomPicker cs).total := by
  rw [total_eq cs (fun c hc => by have := h1 c hc; omega) hfit]
  have := length_le_sum_weights cs h1
  have : 0 < cs.length := List.length_pos.2 hne
  omega

theorem sum_removeSelected_le (sel : String) (rem : List Choice)
    (h0 : ∀ c ∈ rem, 0 ≤ c.Weight) :
    ((removeSelected sel rem).map Choice.Weight).sum ≤ (rem.map Choice.Weight).sum := by
  induction rem with
  | nil => simp [removeSelected]
  | cons c cs ih =>
    have hc := h0 c (by simp)
    have := ih (fun d hd => h0 d (List.mem_cons_of_mem _ hd))
    by_cases h : c.Item = sel
    · simp only [removeSelected, h, if_true, List.map_cons, List.sum_cons]
      omega
    · simp only [removeSelected, h, if_false, List.map_cons, List.sum_cons]
      omega

/-- The removal takes the weight of one entry off the sum. -/
theorem sum_removeSelected (sel : String) (rem : List Choice)
    (h : ∃ c ∈ rem, c.Item = sel) :
    ∃ x ∈ rem, (rem.map Choice.Weight).sum
      = x.Weight + ((removeSelected sel rem).map Choice.Weight).sum := by
  induction rem with
  | nil =>
    obtain ⟨c, hc, _⟩ := h
    simp at hc
  | cons c cs ih =>
    by_cases hcs : c.Item = sel
    · exact ⟨c, by simp, by simp [removeSelected, hcs]⟩
    · obtain ⟨d, hd, hdsel⟩ := h
      have hd' : d ∈ cs := by
        rcases List.mem_cons.1 hd with rfl | hd
        · exact absurd hdsel hcs
        · exact hd
      obtain ⟨x, hx, hsum⟩ := ih ⟨d, hd', hdsel⟩
      refine ⟨x, List.mem_cons_of_mem _ hx, ?_⟩
      simp only [removeSelected, hcs, if_false, List.map_cons, List.sum_cons, hsum]
      omega

theorem removeSelected_map_item (sel : String) (rem : List Choice) :
    (removeSelected sel rem).map Choice.Item = (rem.map Choice.Item).erase sel := by
  induction rem with
  | nil => simp [removeSelected]
  | cons c cs ih =>
    by_cases h : c.Item = sel
    · simp [removeSelected, h]
    · simp [removeSelected, h, List.erase_cons_tail, ih]

theorem removeSelected_subset (sel : String) (rem : List Choice) :
    ∀ x ∈ removeSelected sel rem, x ∈ rem := by
  induction rem with
  | nil => simp [removeSelected]
  | cons c cs ih =>
    intro x hx
    by_cases h : c.Item = sel
    · simp [removeSelected, h] at hx
      exact List.mem_cons_of_mem _ hx
    · simp [removeSelected, h] at hx
      rcases hx with rfl | hx
      · simp
      · exact List.mem_cons_of_mem _ (ih x hx)

/-- Removing the identifier of a member shrinks the remainder by exactly one entry. -/
theorem removeSelected_length (sel : String) (rem : List Choice)
    (h : ∃ c ∈ rem, c.Item = sel) : (removeSelected sel rem).length + 1 = rem.length := by
  obtain ⟨c, hc, hsel⟩ := h
  have hmem : sel ∈ rem.map Choice.Item := hsel ▸ List.mem_map_of_mem Choice.Item hc
  have h1 := congrArg List.length (removeSelected_map_item sel rem)
  rw [List.length_map, List.length_erase_of_mem hmem, List.length_map] at h1
  have : 0 < rem.length := List.length_pos_of_mem hc
  omega

/-- What one execution of the loop body does when it does not fault. -/
theorem offerLoopBody_ok (rng : Nat → Int) (s s1 : OfferLoopState)
    (h : offerLoopBody rng s = .ok s1) :
    ∃ c ∈ s.remainingOffers,
      s1.remainingOffers = removeSelected c.Item s.remainingOffers ∧
      s1.selectedOffers = s.selectedOffers ++ [c.Item] ∧ s1.calls = s.calls + 1 := by
  unfold offerLoopBody at h
  cases hp : Pick (NewWeightedRandomPicker s.remainingOffers) (rng s.calls) with
  | error e => simp [hp] at h
  | ok sel =>
    obtain ⟨c, hc, rfl⟩ := Pick_ok_mem _ _ _ hp
    simp only [hp, Except.ok.injEq] at h
    subst h
    exact ⟨c, hc, rfl, rfl, rfl⟩

theorem offerLoopBody_ok_of_pos (rng : Nat → Int) (s : OfferLoopState)
    (hpos : 0 < (NewWeightedRandomPicker s.remainingOffers).total) :
    ∃ s1, offerLoopBody rng s = .ok s1 := by
  obtain ⟨sel, hp⟩ := Pick_ok_of_pos s.remainingOffers (rng s.calls) hpos
  simp [offerLoopBody, hp]

/-- A completed ranking loop has emptied the remainder, has called the sampler once per
entry of the remainder, and has appended a permutation of the remaining identifiers. -/
theorem offerLoop_ok (rng : Nat → Int) (fuel : Nat) (s s' : OfferLoopState)
    (h : offerLoop rng fuel s = .ok s') :
    s'.remainingOffers = [] ∧ s'.calls = s.calls + s.remainingOffers.length ∧
    ∃ suffix, s'.selectedOffers = s.selectedOffers ++ suffix ∧
      suffix.Perm (s.remainingOffers.map Choice.Item) := by
  induction fuel generalizing s with
  | zero =>
    by_cases hlen : s.remainingOffers.length > 0
    · simp [offerLoop, hlen] at h
    · simp only [offerLoop, hlen, if_false, Except.ok.injEq] at h
      subst h
      have hnil : s.remainingOffers = [] := List.length_eq_zero.1 (by omega)
      exact ⟨hnil, by simp [hnil], [], by simp, by simp [hnil]⟩
  | succ fuel ih =>
    by_cases hlen : s.remainingOffers.length > 0
    · simp only [offerLoop, hlen, if_true] at h
      cases hb : offerLoopBody rng s with
      | error e => simp [hb] at h
      | ok s1 =>
        simp only [hb] at h
        obtain ⟨c, hc, hrem, hsel, hcalls⟩ := offerLoopBody_ok rng s s1 hb
        obtain ⟨hnil, hcalls', suffix, hsuf, hperm⟩ := ih s1 h
        have hl := removeSelected_length c.Item s.remainingOffers ⟨c, hc, rfl⟩
        refine ⟨hnil, ?_, c.Item :: suffix, ?_, ?_⟩
        · rw [hcalls', hcalls, hrem]; omega
        · rw [hsuf, hsel]; simp
        · rw [hrem, removeSelected_map_item] at hperm
          exact (hperm.cons c.Item).trans
            (List.perm_cons_erase (List.mem_map_of_mem Choice.Item hc)).symm
    · simp only [offerLoop, hlen, if_false, Except.ok.injEq] at h
      subst h
      have hnil : s.remainingOffers = [] := List.length_eq_zero.1 (by omega)
      exact ⟨hnil, by simp [hnil], [], by simp, by simp [hnil]⟩

/-- The loop never needs more iterations than the remainder has entries. -/
theorem offerLoop_fuel_succ (rng : Nat → Int) (fuel : Nat) (s : OfferLoopState)
    (hf : s.remainingOffers.length ≤ fuel) :
    offerLoop rng (fuel + 1) s = offerLoop rng fuel s := by
  induction fuel generalizing s with
  | zero =>
    have hlen : ¬ s.remainingOffers.length > 0 := by omega
    simp [offerLoop, hlen]
  | succ fuel ih =>
    by_cases hlen : s.remainingOffers.length > 0
    · rw [offerLoop, offerLoop.eq_def rng (fuel + 1)]
      simp only [hlen, if_true]
      cases hb : offerLoopBody rng s with
      | error e => rfl
      | ok s1 =>
        obtain ⟨c, hc, hrem, _, _⟩ := offerLoopBody_ok rng s s1 hb
        have hl := removeSelected_length c.Item s.remainingOffers ⟨c, hc, rfl⟩
        exact ih s1 (by rw [hrem]; omega)
    · simp [offerLoop, hlen]

theorem offerLoop_fuel_irrelevant (rng : Nat → Int) (fuel : Nat) (s : OfferLoopState)
    (hf : s.remainingOffers.length ≤ fuel) :
    offerLoop rng fuel s = offerLoop rng s.remainingOffers.length s := by
  induction fuel with
  | zero =>
    have : s.remainingOffers.length = 0 := by omega
    rw [this]
  | succ fuel ih =>
    by_cases h : s.remainingOffers.length ≤ fuel
    · rw [offerLoop_fuel_succ rng fuel s h, ih h]
    · have : s.remainingOffers.length = fuel + 1 := by omega
      rw [this]

/-- Whatever the weights, the loop does not exhaust a budget of as many iterations as
the remainder has entries: an iteration faults or removes an entry. -/
theorem offerLoop_never_outOfFuel (rng : Nat → Int) (fuel : Nat) (s : OfferLoopState)
    (hf : s.remainingOffers.length ≤ fuel) : offerLoop rng fuel s ≠ .error .outOfFuel := by
  induction fuel generalizing s with
  | zero =>
    have hlen : ¬ s.remainingOffers.length > 0 := by omega
    simp [offerLoop, hlen]
  | succ fuel ih =>
    by_cases hlen : s.remainingOffers.length > 0
    · simp only [offerLoop, hlen, if_true]
      cases hb : offerLoopBody rng s with
      | error e =>
        have hp : e = .intnInvalidArgument := by
          unfold offerLoopBody at hb
          cases hpick : Pick (NewWeightedRandomPicker s.remainingOffers) (rng s.calls) with
          | ok sel => simp [hpick] at hb
          | error e' =>
            simp only [hpick, Except.error.injEq] at hb
            subst hb
            by_cases hpos : 0 < (NewWeightedRandomPicker s.remainingOffers).total
            · obtain ⟨sel, hsel⟩ := Pick_ok_of_pos s.remainingOffers (rng s.calls) hpos
              rw [hsel] at hpick
              exact absurd hpick (by simp)
            · have hle : (NewWeightedRandomPicker s.remainingOffers).total ≤ 0 := by omega
              simp [Pick, Intn, hle] at hpick
              exact hpick.symm
        subst hp
        simp
      | ok s1 =>
        obtain ⟨c, hc, hrem, _, _⟩ := offerLoopBody_ok rng s s1 hb
        have hl := removeSelected_length c.Item s.remainingOffers ⟨c, hc, rfl⟩
        exact ih s1 (by rw [hrem]; omega)
    · simp [offerLoop, hlen]

/-- With every remaining weight at least 1, a sum of the weights below `2^63` and enough
iterations, the loop completes. -/
theorem offerLoop_total (rng : Nat → Int) (fuel : Nat) (s : OfferLoopState)
    (h1 : ∀ c ∈ s.remainingOffers, 1 ≤ c.Weight)
    (hfit : (s.remainingOffers.map Choice.Weight).sum < 9223372036854775808)
    (hf : s.remainingOffers.length ≤ fuel) :
    ∃ s', offerLoop rng fuel s = .ok s' := by
  induction fuel generalizing s with
  | zero =>
    have hlen : ¬ s.remainingOffers.length > 0 := by omega
    exact ⟨s, by simp [offerLoop, hlen]⟩
  | succ fuel ih =>
    by_cases hlen : s.remainingOffers.length > 0
    · have hne : s.remainingOffers ≠ [] := List.length_pos.1 hlen
      obtain ⟨s1, hb⟩ := offerLoopBody_ok_of_pos rng s
        (total_pos_of_weights s.remainingOffers h1 hfit hne)
      obtain ⟨c, hc, hrem, _, _⟩ := offerLoopBody_ok rng s s1 hb
      have hl := removeSelected_length c.Item s.remainingOffers ⟨c, hc, rfl⟩
      have hle := sum_removeSelected_le c.Item s.remainingOffers
        (fun d hd => by have := h1 d hd; omega)
      obtain ⟨s', hs'⟩ := ih s1
        (by rw [hrem]; exact fun x hx => h1 x (removeSelected_subset _ _ x hx))
        (by rw [hrem]; omega)
        (by rw [hrem]; omega)
      exact ⟨s', by simp [offerLoop, hlen, hb, hs']⟩
    · exact ⟨s, by simp [offerLoop, hlen]⟩

/-- With every remaining weight at least 1, a sum of the weights below `2^63` and too few
iterations, the budget runs out. -/
theorem offerLoop_short (rng : Nat → Int) (fuel : Nat) (s : OfferLoopState)
    (h1 : ∀ c ∈ s.remainingOffers, 1 ≤ c.Weight)
    (hfit : (s.remainingOffers.map Choice.Weight).sum < 9223372036854775808)
    (hf : fuel < s.remainingOffers.length) :
    offerLoop rng fuel s = .error .outOfFuel := by
  induction fuel generalizing s with
  | zero => simp [offerLoop, hf]
  | succ fuel ih =>
    have hlen : s.remainingOffers.length > 0 := by omega
    have hne : s.remainingOffers ≠ [] := List.length_pos.1 hlen
    obtain ⟨s1, hb⟩ := offerLoopBody_ok_of_pos rng s
      (total_pos_of_weights s.remainingOffers h1 hfit hne)
    obtain ⟨c, hc, hrem, _, _⟩ := offerLoopBody_ok rng s s1 hb
    have hl := removeSelected_length c.Item s.remainingOffers ⟨c, hc, rfl⟩
    have hle := sum_removeSelected_le c.Item s.remainingOffers
      (fun d hd => by have := h1 d hd; omega)
    have := ih s1 (by rw [hrem]; exact fun x hx => h1 x (removeSelected_subset _ _ x hx))
      (by rw [hrem]; omega) (by rw [hrem]; omega)
    simp [offerLoop, hlen, hb, this]

/-- A ranking loop that completes has had weights summing to less than `2^63`, when these
are values of a Go `int` and none is negative: otherwise the first total wraps around to
a value that is not positive and `rand.Intn` stops the loop. -/
theorem offerLoop_ok_sum_lt (rng : Nat → Int) (fuel : Nat) (s s' : OfferLoopState)
    (h0 : ∀ c ∈ s.remainingOffers, 0 ≤ c.Weight)
    (hmax : ∀ c ∈ s.remainingOffers, c.Weight < 9223372036854775808)
    (h : offerLoop rng fuel s = .ok s') :
    (s.remainingOffers.map Choice.Weight).sum < 9223372036854775808 := by
  induction fuel generalizing s with
  | zero =>
    by_cases hlen : s.remainingOffers.length > 0
    · simp [offerLoop, hlen] at h
    · have hnil : s.remainingOffers = [] := List.length_eq_zero.1 (by omega)
      simp [hnil]
  | succ fuel ih =>
    by_cases hlen : s.remainingOffers.length > 0
    · simp only [offerLoop, hlen, if_true] at h
      cases hb : offerLoopBody rng s with
      | error e => simp [hb] at h
      | ok s1 =>
        simp only [hb] at h
        obtain ⟨c, hc, hrem, _, _⟩ := offerLoopBody_ok rng s s1 hb
        have hIH := ih s1
          (by rw [hrem]; exact fun x hx => h0 x (removeSelected_subset _ _ x hx))
          (by rw [hrem]; exact fun x hx => hmax x (removeSelected_subset _ _ x hx)) h
        rw [hrem] at hIH
        obtain ⟨x, hx, hsum⟩ := sum_removeSelected c.Item s.remainingOffers ⟨c, hc, rfl⟩
        have hxmax := hmax x hx
        have hpos : 0 < (NewWeightedRandomPicker s.remainingOffers).total := by
          by_contra hnp
          have hle : (NewWeightedRandomPicker s.remainingOffers).total ≤ 0 := by omega
          simp [offerLoopBody, Pick, Intn, hle] at hb
        rw [total_eq_wrap] at hpos
        have hnn := sum_weights_nonneg s.remainingOffers h0
        unfold wrapInt64 at hpos
        omega
    · have hnil : s.remainingOffers = [] := List.length_eq_zero.1 (by omega)
      simp [hnil]

/-- The scan of `Pick` sees the raw value only through the draw `raw % total`. -/
theorem Pick_congr_draw (p : WeightedRandomPicker) (raw1 raw2 : Int)
    (h : raw1 % p.total = raw2 % p.total) : Pick p raw1 = Pick p raw2 := by
  simp [Pick, Intn, h]

/-- Two random sources that agree on the draws the loop still has to make give the same
run of the loop. -/
theorem offerLoop_congr (rng1 rng2 : Nat → Int) (fuel : Nat) (s : OfferLoopState)
    (h : ∀ k, s.calls ≤ k → k < s.calls + s.remainingOffers.length → rng1 k = rng2 k) :
    offerLoop rng1 fuel s = offerLoop rng2 fuel s := by
  induction fuel generalizing s with
  | zero => simp [offerLoop]
  | succ fuel ih =>
    by_cases hlen : s.remainingOffers.length > 0
    · have hb : offerLoopBody rng1 s = offerLoopBody rng2 s := by
        simp [offerLoopBody, h s.calls (Nat.le_refl _) (by omega)]
      simp only [offerLoop, hlen, if_true, ← hb]
      cases hb1 : offerLoopBody rng1 s with
      | error e => rfl
      | ok s1 =>
        obtain ⟨c, hc, hrem, _, hcalls⟩ := offerLoopBody_ok rng1 s s1 hb1
        have hl := removeSelected_length c.Item s.remainingOffers ⟨c, hc, rfl⟩
        apply ih s1
        intro k hk1 hk2
        rw [hcalls] at hk1
        rw [hcalls, hrem] at hk2
        exact h k (by omega) (by omega)
    · simp [offerLoop, hlen]

/-! ## The adjustment step -/

theorem adjustWeight_item (O : Float64Ops) (cc : List (String × Int))
    (targetRatios : String → O.F) (t : Int) (c : Choice) :
    (adjustWeight O cc targetRatios t c).Item = c.Item := by
  unfold adjustWeight
  simp only
  split_ifs <;> rfl

/-- The three cases of the adjustment of one weight. -/
theorem adjustWeight_weight (O : Float64Ops) (cc : List (String × Int))
    (targetRatios : String → O.F) (t : Int) (c : Choice) :
    (adjustWeight O cc targetRatios t c).Weight =
      if O.lt (O.div (O.ofInt (clickCountsGet cc c.Item)) (O.ofInt t)) (targetRatios c.Item)
      then c.Weight + 1
      else if O.lt (targetRatios c.Item)
          (O.div (O.ofInt (clickCountsGet cc c.Item)) (O.ofInt t))
        then (if c.Weight > 1 then c.Weight - 1 else c.Weight)
        else c.Weight := by
  unfold adjustWeight
  simp only
  split_ifs <;> rfl

theorem adjustWeight_floor (O : Float64Ops) (cc : List (String × Int))
    (targetRatios : String → O.F) (t : Int) (c : Choice) :
    ((adjustWeight O cc targetRatios t c).Weight < c.Weight →
      1 ≤ (adjustWeight O cc targetRatios t c).Weight) ∧
    (1 ≤ c.Weight → 1 ≤ (adjustWeight O cc targetRatios t c).Weight) := by
  rw [adjustWeight_weight]
  split_ifs <;> constructor <;> intro h <;> omega

theorem adjustWeights_floor (O : Float64Ops) (cc : List (String × Int))
    (targetRatios : String → O.F) (choices : List Choice)
    (h1 : ∀ c ∈ choices, 1 ≤ c.Weight) :
    ∀ c ∈ adjustWeights O cc targetRatios choices, 1 ≤ c.Weight := by
  unfold adjustWeights
  split_ifs
  · intro c hc
    obtain ⟨d, hd, rfl⟩ := List.mem_map.1 hc
    exact (adjustWeight_floor O cc targetRatios _ d).2 (h1 d hd)
  · exact h1

/-- A trial that does not fault leaves the list adjusted by the click counts it recorded. -/
theorem trial_ok (O : Float64Ops) (src : RandSource O) (targetRatios : String → O.F)
    (s s' : SimState) (h : trial O src targetRatios s = .ok s') :
    s'.choices = adjustWeights O s'.clickCounts targetRatios s.choices := by
  unfold trial at h
  cases hg : GenerateNonRepeatingOffers s.choices (fun k => src.intn (s.calls + k))
      s.choices.length with
  | error e => simp [hg] at h
  | ok offerList =>
    simp only [hg] at h
    cases hr : recordClicks O src offerList s.clickCounts (s.calls + offerList.length) with
    | error e => simp [hr] at h
    | ok r =>
      obtain ⟨cc, calls⟩ := r
      simp only [hr, Except.ok.injEq] at h
      subst h
      rfl

theorem trial_floor (O : Float64Ops) (src : RandSource O) (targetRatios : String → O.F)
    (s s' : SimState) (h : trial O src targetRatios s = .ok s')
    (h1 : ∀ c ∈ s.choices, 1 ≤ c.Weight) : ∀ c ∈ s'.choices, 1 ≤ c.Weight := by
  rw [trial_ok O src targetRatios s s' h]
  exact adjustWeights_floor O _ targetRatios s.choices h1

theorem trialLoop_floor (O : Float64Ops) (src : RandSource O) (targetRatios : String → O.F)
    (n : Nat) (s s' : SimState) (h : trialLoop O src targetRatios n s = .ok s')
    (h1 : ∀ c ∈ s.choices, 1 ≤ c.Weight) : ∀ c ∈ s'.choices, 1 ≤ c.Weight := by
  induction n generalizing s with
  | zero =>
    simp only [trialLoop, Except.ok.injEq] at h
    subst h
    exact h1
  | succ n ih =>
    simp only [trialLoop] at h
    cases ht : trial O src targetRatios s with
    | error e => simp [ht] at h
    | ok s1 =>
      simp only [ht] at h
      exact ih s1 h (trial_floor O src targetRatios s s1 ht h1)

/-! ## The ranking loop on explicit memory -/

theorem findSelected_none (sel : String) (k : Nat) (view : List Choice)
    (h : findSelected sel k view = none) : removeSelected sel view = view := by
  induction view generalizing k with
  | nil => rfl
  | cons c cs ih =>
    by_cases hc : c.Item = sel
    · simp [findSelected, hc] at h
    · simp only [findSelected, hc, if_false] at h
      simp [removeSelected, hc, ih (k + 1) h]

theorem findSelected_some (sel : String) (k i : Nat) (view : List Choice)
    (h : findSelected sel k view = some i) :
    ∃ j, i = k + j ∧ j < view.length ∧
      removeSelected sel view = view.take j ++ view.drop (j + 1) := by
  induction view generalizing k with
  | nil => simp [findSelected] at h
  | cons c cs ih =>
    by_cases hc : c.Item = sel
    · simp only [findSelected, hc, if_true, Option.some.injEq] at h
      exact ⟨0, by omega, by simp, by simp [removeSelected, hc]⟩
    · simp only [findSelected, hc, if_false] at h
      obtain ⟨j, hj, hlt, hrem⟩ := ih (k + 1) h
      exact ⟨j + 1, by omega, by simpa using hlt, by simp [removeSelected, hc, hrem]⟩

/-- The effect of `append(remainingOffers[:i], remainingOffers[i+1:]...)` on the heap: only
the backing array of `remainingOffers` is written, and the slice shows the old elements
without the one at index `i`. -/
theorem appendRemove_spec (heap : List (List Choice)) (rem : Slice) (i : Nat)
    (haddr : rem.addr < heap.length) (hlen : rem.len ≤ (heap.getD rem.addr []).length)
    (hi : i < rem.len) :
    sliceView (appendRemove heap rem i).1 (appendRemove heap rem i).2
      = (sliceView heap rem).take i ++ (sliceView heap rem).drop (i + 1) ∧
    (appendRemove heap rem i).1.length = heap.length ∧
    (∀ a, a ≠ rem.addr → (appendRemove heap rem i).1[a]? = heap[a]?) ∧
    (appendRemove heap rem i).2.addr = rem.addr ∧
    (appendRemove heap rem i).2.len + 1 = rem.len ∧
    (appendRemove heap rem i).2.len
      ≤ ((appendRemove heap rem i).1.getD (appendRemove heap rem i).2.addr []).length := by
  simp only [List.getD_eq_getElem?_getD] at hlen
  simp only [appendRemove, sliceView, List.getD_eq_getElem?_getD, List.length_set,
    List.getElem?_set_self haddr, Option.getD_some, true_and]
  generalize (heap[rem.addr]?).getD [] = arr at hlen ⊢
  have hpre : (List.take i arr ++ List.drop (i + 1) (List.take rem.len arr)).length
      = rem.len - 1 := by
    simp only [List.length_append, List.length_take, List.length_drop]
    omega
  refine ⟨?_, ?_, ?_, ?_⟩
  · rw [List.take_append_of_le_length (by omega), List.take_of_length_le (by omega),
      List.take_take, Nat.min_eq_left (by omega)]
  · intro a ha
    rw [List.getElem?_set_ne (Ne.symm ha)]
  · omega
  · simp only [List.length_append, List.length_take, List.length_drop]
    omega

/-- One iteration on explicit memory is one iteration on the view, and writes only the
backing array of `remainingOffers`. -/
theorem offerMemBody_spec (rng : Nat → Int) (s : OfferMemState)
    (haddr : s.remainingOffers.addr < s.heap.length)
    (hlen : s.remainingOffers.len ≤ (s.heap.getD s.remainingOffers.addr []).length) :
    (∀ e, offerMemBody rng s = .error e → offerLoopBody rng (viewState s) = .error e) ∧
    (∀ s1, offerMemBody rng s = .ok s1 →
      offerLoopBody rng (viewState s) = .ok (viewState s1) ∧
      s1.remainingOffers.addr = s.remainingOffers.addr ∧
      s1.heap.length = s.heap.length ∧
      s1.remainingOffers.len ≤ (s1.heap.getD s1.remainingOffers.addr []).length ∧
      ∀ a, a ≠ s.remainingOffers.addr → s1.heap[a]? = s.heap[a]?) := by
  have hview : (sliceView s.heap s.remainingOffers).length = s.remainingOffers.len := by
    simp only [List.getD_eq_getElem?_getD] at hlen
    simp only [sliceView, List.getD_eq_getElem?_getD, List.length_take]
    omega
  constructor
  · intro e h
    unfold offerMemBody at h
    cases hp : Pick (NewWeightedRandomPicker (sliceView s.heap s.remainingOffers))
        (rng s.calls) with
    | error e' =>
      simp only [hp, Except.error.injEq] at h
      subst h
      simp [offerLoopBody, viewState, hp]
    | ok sel => simp [hp] at h
  · intro s1 h
    unfold offerMemBody at h
    cases hp : Pick (NewWeightedRandomPicker (sliceView s.heap s.remainingOffers))
        (rng s.calls) with
    | error e' => simp [hp] at h
    | ok sel =>
      simp only [hp, Except.ok.injEq] at h
      subst h
      cases hfind : findSelected sel 0 (sliceView s.heap s.remainingOffers) with
      | none =>
        have hrem := findSelected_none sel 0 _ hfind
        refine ⟨?_, rfl, rfl, hlen, fun a _ => rfl⟩
        simp [offerLoopBody, viewState, hp, hrem]
      | some i =>
        obtain ⟨j, hj, hjlt, hrem⟩ := findSelected_some sel 0 i _ hfind
        have hij : i = j := by omega
        subst hij
        obtain ⟨hv, hl, hother, ha, _, hb⟩ :=
          appendRemove_spec s.heap s.remainingOffers i haddr hlen (by omega)
        refine ⟨?_, ha, hl, hb, hother⟩
        simp [offerLoopBody, viewState, hp, hrem, hv]

/-- The loop on explicit memory computes what the loop on the view computes, and leaves
every backing array other than that of `remainingOffers` as it was. -/
theorem offerMemLoop_spec (rng : Nat → Int) (fuel : Nat) (s : OfferMemState)
    (haddr : s.remainingOffers.addr < s.heap.length)
    (hlen : s.remainingOffers.len ≤ (s.heap.getD s.remainingOffers.addr []).length) :
    (offerMemLoop rng fuel s).1
      = (match offerLoop rng fuel (viewState s) with
        | .error e => .error e
        | .ok s' => .ok s'.selectedOffers) ∧
    ∀ a, a ≠ s.remainingOffers.addr → (offerMemLoop rng fuel s).2[a]? = s.heap[a]? := by
  have hview : (sliceView s.heap s.remainingOffers).length = s.remainingOffers.len := by
    simp only [List.getD_eq_getElem?_getD] at hlen
    simp only [sliceView, List.getD_eq_getElem?_getD, List.length_take]
    omega
  induction fuel generalizing s with
  | zero =>
    by_cases h0 : s.remainingOffers.len > 0
    · have h0' : (viewState s).remainingOffers.length > 0 := by
        simpa [viewState, hview] using h0
      simp [offerMemLoop, offerLoop, h0, h0']
    · have h0' : ¬ (viewState s).remainingOffers.length > 0 := by
        simpa [viewState, hview] using h0
      simp only [offerMemLoop, offerLoop, h0, h0', if_false]
      exact ⟨rfl, fun a _ => trivial⟩
  | succ fuel ih =>
    by_cases h0 : s.remainingOffers.len > 0
    · have h0' : (viewState s).remainingOffers.length > 0 := by
        simpa [viewState, hview] using h0
      obtain ⟨herr, hok⟩ := offerMemBody_spec rng s haddr hlen
      simp only [offerMemLoop, offerLoop, h0, h0', if_true]
      cases hb : offerMemBody rng s with
      | error e =>
        rw [herr e hb]
        exact ⟨rfl, fun a _ => rfl⟩
      | ok s1 =>
        obtain ⟨hstep, ha, hl, hb1, hother⟩ := hok s1 hb
        rw [hstep]
        have hview1 : (sliceView s1.heap s1.remainingOffers).length
            = s1.remainingOffers.len := by
          simp only [List.getD_eq_getElem?_getD] at hb1
          simp only [sliceView, List.getD_eq_getElem?_getD, List.length_take]
          omega
        obtain ⟨hres, hframe⟩ := ih s1 (by rw [ha, hl]; exact haddr) hb1 hview1
        refine ⟨hres, ?_⟩
        intro a hne
        rw [hframe a (by rw [ha]; exact hne), hother a hne]
    · have h0' : ¬ (viewState s).remainingOffers.length > 0 := by
        simpa [viewState, hview] using h0
      simp only [offerMemLoop, offerLoop, h0, h0', if_false]
      exact ⟨rfl, fun a _ => trivial⟩

theorem sliceView_length (heap : List (List Choice)) (sl : Slice)
    (hlen : sl.len ≤ (heap.getD sl.addr []).length) :
    (sliceView heap sl).length = sl.len := by
  simp only [List.getD_eq_getElem?_getD] at hlen
  simp only [sliceView, List.getD_eq_getElem?_getD, List.length_take]
  omega

/-- The allocation and the copy at the head of the function: a new backing array holding
the caller's elements is added at the end of the heap. -/
theorem copy_of_make (heap : List (List Choice)) (choices : Slice)
    (haddr : choices.addr < heap.length)
    (hlen : choices.len ≤ (heap.getD choices.addr []).length) :
    copySlice (makeSlice heap choices.len).1 (makeSlice heap choices.len).2 choices
      = heap ++ [sliceView heap choices] := by
  have hview0 : sliceView (heap ++ [List.replicate choices.len (⟨"", 0⟩ : Choice)]) choices
      = sliceView heap choices := by
    simp only [sliceView, List.getD_eq_getElem?_getD, List.getElem?_append_left haddr]
  have hvlen := sliceView_length heap choices hlen
  have harr : (List.take (min choices.len choices.len) (sliceView heap choices)
        ++ List.drop (min choices.len choices.len)
            (List.replicate choices.len (⟨"", 0⟩ : Choice)))
      = sliceView heap choices := by
    rw [Nat.min_self, List.take_of_length_le (by omega)]
    simp
  simp only [copySlice, makeSlice, hview0, List.getD_eq_getElem?_getD]
  rw [List.getElem?_append_right (Nat.le_refl _)]
  simp only [Nat.sub_self, List.getElem?_cons_zero, Option.getD_some]
  rw [harr, List.set_append_right _ _ (Nat.le_refl _)]
  simp

/-! ## More on the cumulative table and the scan -/

theorem sum_take_succ (cs : List Choice) (k : Nat) (c : Choice) (hc : cs[k]? = some c) :
    ((cs.take (k + 1)).map Choice.Weight).sum
      = ((cs.take k).map Choice.Weight).sum + c.Weight := by
  rw [List.take_succ, hc]
  simp

/-- With every weight at least 1 the running totals grow by at least one per item. -/
theorem sum_take_add_le (cs : List Choice) (h1 : ∀ c ∈ cs, 1 ≤ c.Weight) (i j : Nat)
    (hij : i ≤ j) (hj : j ≤ cs.length) :
    ((cs.take i).map Choice.Weight).sum + ((j - i : Nat) : Int)
      ≤ ((cs.take j).map Choice.Weight).sum := by
  induction j with
  | zero =>
    have : i = 0 := by omega
    subst this
    simp
  | succ j ih =>
    by_cases hi : i = j + 1
    · subst hi
      simp
    · have hjl : j < cs.length := by omega
      have hget : cs[j]? = some cs[j] := List.getElem?_eq_getElem hjl
      have hw := h1 cs[j] (List.getElem_mem hjl)
      have := ih (by omega) (by omega)
      rw [sum_take_succ cs j cs[j] hget]
      have hcast : ((j + 1 - i : Nat) : Int) = ((j - i : Nat) : Int) + 1 := by omega
      omega

/-- On a picker with positive total and no negative weight `Pick` returns the identifier
of an item of positive weight, found by the scan at an index of the table; wrap-around of
the running total does not change this. -/
theorem Pick_pos_weight (choices : List Choice) (h0 : ∀ c ∈ choices, 0 ≤ c.Weight)
    (raw : Int) (hpos : 0 < (NewWeightedRandomPicker choices).total) :
    ∃ (k : Nat) (c : Choice), choices[k]? = some c ∧ 0 < c.Weight ∧
      Pick (NewWeightedRandomPicker choices) raw = .ok c.Item ∧
      ∃ s, (NewWeightedRandomPicker choices).cumSum[k]? = some s ∧
        raw % (NewWeightedRandomPicker choices).total < s := by
  obtain ⟨k, c, hc, hp, ⟨s, hs, hrs⟩, hb⟩ := Pick_first choices raw hpos
  refine ⟨k, c, hc, ?_, hp, s, hs, hrs⟩
  have hk : k < choices.length := (List.getElem?_eq_some.1 hc).1
  have hc0 : 0 ≤ c.Weight := h0 c (List.getElem?_mem hc)
  have hr0 : 0 ≤ raw % (NewWeightedRandomPicker choices).total :=
    Int.emod_nonneg _ (by omega)
  by_contra hnot
  have hz : c.Weight = 0 := by omega
  have hsk := cumSum_getElem?_wrap choices k hk
  rw [hs, sum_take_succ choices k c hc, hz, add_zero] at hsk
  simp only [Option.some.injEq] at hsk
  cases k with
  | zero =>
    simp only [List.take_zero, List.map_nil, List.sum_nil] at hsk
    have : wrapInt64 0 = 0 := by decide
    omega
  | succ k =>
    have hprev := cumSum_getElem?_wrap choices k (by omega)
    have := hb k (by omega) _ hprev
    omega

/-! ## Remainders with a zero-weight item -/

theorem mem_removeSelected_of_ne (sel : String) (rem : List Choice) (x : Choice)
    (hx : x ∈ rem) (hne : x.Item ≠ sel) : x ∈ removeSelected sel rem := by
  induction rem with
  | nil => simp at hx
  | cons c cs ih =>
    by_cases h : c.Item = sel
    · rcases List.mem_cons.1 hx with rfl | hx
      · exact absurd h hne
      · simpa [removeSelected, h] using hx
    · rcases List.mem_cons.1 hx with rfl | hx
      · simp [removeSelected, h]
      · simp [removeSelected, h, ih hx]

/-- The iteration of the body on a remainder with positive total and no negative weight
removes an item of positive weight. -/
theorem offerLoopBody_pos (rng : Nat → Int) (s : OfferLoopState)
    (h0 : ∀ c ∈ s.remainingOffers, 0 ≤ c.Weight)
    (hpos : 0 < (NewWeightedRandomPicker s.remainingOffers).total) :
    ∃ c ∈ s.remainingOffers, 0 < c.Weight ∧
      offerLoopBody rng s = .ok
        { remainingOffers := removeSelected c.Item s.remainingOffers,
          selectedOffers := s.selectedOffers ++ [c.Item],
          calls := s.calls + 1 } := by
  obtain ⟨k, c, hc, hw, hp, _⟩ := Pick_pos_weight s.remainingOffers h0 (rng s.calls) hpos
  exact ⟨c, List.getElem?_mem hc, hw, by simp [offerLoopBody, hp]⟩

/-- With unique identifiers, the removal of an item of positive weight keeps every item
of weight 0. -/
theorem zero_weight_kept (rem : List Choice) (hnd : (rem.map Choice.Item).Nodup)
    (c : Choice) (hc : c ∈ rem) (hcw : 0 < c.Weight) :
    ∀ x ∈ rem, x.Weight = 0 → x ∈ removeSelected c.Item rem := by
  intro x hx hxw
  apply mem_removeSelected_of_ne _ _ _ hx
  intro heq
  have := List.inj_on_of_nodup_map hnd hx hc heq
  rw [this] at hxw
  omega

/-- What the loop does once `k` iterations have gone through. -/
theorem offerLoop_of_after (rng : Nat → Int) (k : Nat) (s s' : OfferLoopState)
    (h : offerLoopAfter rng k s = some s') (fuel : Nat) :
    (k ≤ fuel → offerLoop rng fuel s = offerLoop rng (fuel - k) s') ∧
    (fuel < k → offerLoop rng fuel s = .error .outOfFuel) := by
  induction k generalizing s fuel with
  | zero =>
    simp only [offerLoopAfter, Option.some.injEq] at h
    subst h
    exact ⟨fun _ => rfl, fun hlt => absurd hlt (Nat.not_lt_zero _)⟩
  | succ k ih =>
    by_cases hlen : s.remainingOffers.length > 0
    · simp only [offerLoopAfter, hlen, if_true] at h
      cases hb : offerLoopBody rng s with
      | error e => simp [hb] at h
      | ok s1 =>
        simp only [hb] at h
        cases fuel with
        | zero =>
          exact ⟨fun hle => absurd hle (by omega), fun _ => by simp [offerLoop, hlen]⟩
        | succ fuel =>
          obtain ⟨h1, h2⟩ := ih s1 h fuel
          constructor
          · intro hle
            simp only [offerLoop, hlen, if_true, hb]
            rw [h1 (by omega)]
            congr 1
            omega
          · intro hlt
            simp only [offerLoop, hlen, if_true, hb]
            exact h2 (by omega)
    · simp [offerLoopAfter, hlen] at h

/-- A remainder with unique identifiers, no negative weight and an item of weight 0 is
driven, in fewer iterations than it has entries, to a non-empty part of it whose total is
not positive and that still holds every item of weight 0. -/
theorem zero_weight_stuck (rng : Nat → Int) (n : Nat) (s : OfferLoopState)
    (hn : s.remainingOffers.length ≤ n)
    (hnd : (s.remainingOffers.map Choice.Item).Nodup)
    (h0 : ∀ c ∈ s.remainingOffers, 0 ≤ c.Weight)
    (hz : ∃ z ∈ s.remainingOffers, z.Weight = 0) :
    ∃ k s', offerLoopAfter rng k s = some s' ∧ k < s.remainingOffers.length ∧
      s'.remainingOffers ≠ [] ∧ (NewWeightedRandomPicker s'.remainingOffers).total ≤ 0 ∧
      (∀ x ∈ s'.remainingOffers, x ∈ s.remainingOffers) ∧
      (s'.remainingOffers.map Choice.Weight).sum ≤ (s.remainingOffers.map Choice.Weight).sum ∧
      ∀ z ∈ s.remainingOffers, z.Weight = 0 → z ∈ s'.remainingOffers := by
  induction n generalizing s with
  | zero =>
    obtain ⟨z, hzm, _⟩ := hz
    have := List.length_pos_of_mem hzm
    omega
  | succ n ih =>
    obtain ⟨z, hzm, hzw⟩ := hz
    have hlen : 0 < s.remainingOffers.length := List.length_pos_of_mem hzm
    by_cases hpos : 0 < (NewWeightedRandomPicker s.remainingOffers).total
    · obtain ⟨c, hc, hcw, hb⟩ := offerLoopBody_pos rng s h0 hpos
      have hl := removeSelected_length c.Item s.remainingOffers ⟨c, hc, rfl⟩
      have hle := sum_removeSelected_le c.Item s.remainingOffers h0
      have hkeep := zero_weight_kept s.remainingOffers hnd c hc hcw
      obtain ⟨k, s', hafter, hk, hne, htot, hsub, hsum, hzs⟩ := ih
        { remainingOffers := removeSelected c.Item s.remainingOffers,
          selectedOffers := s.selectedOffers ++ [c.Item],
          calls := s.calls + 1 }
        (by simp only; omega)
        (by simp only [removeSelected_map_item]; exact hnd.erase _)
        (fun x hx => h0 x (removeSelected_subset _ _ x hx))
        ⟨z, hkeep z hzm hzw, hzw⟩
      refine ⟨k + 1, s', ?_, ?_, hne, htot, ?_, ?_, ?_⟩
      · simp only [offerLoopAfter, gt_iff_lt, hlen, if_true, hb]
        exact hafter
      · simp only at hk
        omega
      · exact fun x hx => removeSelected_subset _ _ x (hsub x hx)
      · simp only at hsum
        omega
      · intro x hx hxw
        exact hzs x (hkeep x hx hxw) hxw
    · exact ⟨0, s, rfl, hlen, List.ne_nil_of_length_pos hlen, by omega, fun x hx => hx,
        Int.le_refl _, fun x hx _ => hx⟩

/-- A remainder with unique identifiers, no negative weight and an item of weight 0 is
never ranked to the end: the loop stops in `rand.Intn`, or is still running when the
iteration budget is smaller than the remainder. -/
theorem zero_weight_no_ranking (rng : Nat → Int) (fuel : Nat) (s : OfferLoopState)
    (hnd : (s.remainingOffers.map Choice.Item).Nodup)
    (h0 : ∀ c ∈ s.remainingOffers, 0 ≤ c.Weight)
    (hz : ∃ z ∈ s.remainingOffers, z.Weight = 0) :
    (offerLoop rng fuel s = .error .intnInvalidArgument ∨
      offerLoop rng fuel s = .error .outOfFuel) ∧
    (s.remainingOffers.length ≤ fuel →
      offerLoop rng fuel s = .error .intnInvalidArgument) := by
  induction fuel generalizing s with
  | zero =>
    obtain ⟨z, hzm, _⟩ := hz
    have hlen : s.remainingOffers.length > 0 := List.length_pos_of_mem hzm
    exact ⟨Or.inr (by simp [offerLoop, hlen]), fun h => absurd h (by omega)⟩
  | succ fuel ih =>
    obtain ⟨z, hzm, hzw⟩ := hz
    have hlen : s.remainingOffers.length > 0 := List.length_pos_of_mem hzm
    by_cases hpos : 0 < (NewWeightedRandomPicker s.remainingOffers).total
    · obtain ⟨c, hc, hcw, hb⟩ := offerLoopBody_pos rng s h0 hpos
      have hl := removeSelected_length c.Item s.remainingOffers ⟨c, hc, rfl⟩
      have hkeep := zero_weight_kept s.remainingOffers hnd c hc hcw
      obtain ⟨h1, h2⟩ := ih
        { remainingOffers := removeSelected c.Item s.remainingOffers,
          selectedOffers := s.selectedOffers ++ [c.Item],
          calls := s.calls + 1 }
        (by simp only [removeSelected_map_item]; exact hnd.erase _)
        (fun x hx => h0 x (removeSelected_subset _ _ x hx))
        ⟨z, hkeep z hzm hzw, hzw⟩
      simp only [offerLoop, hlen, if_true, hb]
      exact ⟨h1, fun h => h2 (by simp only; omega)⟩
    · have hle : (NewWeightedRandomPicker s.remainingOffers).total ≤ 0 := by omega
      have : offerLoop rng (fuel + 1) s = .error .intnInvalidArgument := by
        simp [offerLoop, hlen, offerLoopBody, Pick, Intn, hle]
      exact ⟨Or.inl this, fun _ => this⟩

/-- On a non-empty remainder whose total is not positive the next iteration faults in
`rand.Intn`. -/
theorem offerLoop_stuck (rng : Nat → Int) (s : OfferLoopState)
    (hne : s.remainingOffers ≠ [])
    (htot : (NewWeightedRandomPicker s.remainingOffers).total ≤ 0) :
    Pick (NewWeightedRandomPicker s.remainingOffers) (rng s.calls)
      = .error .intnInvalidArgument ∧
    offerLoop rng 0 s = .error .outOfFuel ∧
    ∀ fuel, offerLoop rng (fuel + 1) s = .error .intnInvalidArgument := by
  have hlen : s.remainingOffers.length > 0 := List.length_pos.2 hne
  have hp : Pick (NewWeightedRandomPicker s.remainingOffers) (rng s.calls)
      = .error .intnInvalidArgument := by
    simp [Pick, Intn, htot]
  refine ⟨hp, by simp [offerLoop, hlen], ?_⟩
  intro fuel
  simp [offerLoop, hlen, offerLoopBody, hp]


/-! ## Click recording -/

theorem GenerateNonRepeatingOffers_length (choices : List Choice)
    (h1 : ∀ c ∈ choices, 1 ≤ c.Weight)
    (hfit : (choices.map Choice.Weight).sum < 9223372036854775808)
    (rng : Nat → Int) (fuel : Nat) (hf : choices.length ≤ fuel) :
    ∃ offers, GenerateNonRepeatingOffers choices rng fuel = .ok offers ∧
      offers.length = choices.length := by
  obtain ⟨s', hs'⟩ := offerLoop_total rng fuel (offerLoopInit choices) h1 hfit hf
  obtain ⟨_, _, suffix, hsuf, hperm⟩ := offerLoop_ok rng fuel _ s' hs'
  simp only [offerLoopInit, List.nil_append] at hsuf hperm
  refine ⟨s'.selectedOffers, by simp [GenerateNonRepeatingOffers, hs'], ?_⟩
  rw [hsuf, hperm.length_eq, List.length_map]

/-- The exact outcome of the click recording on a ranking with a first and a second
entry. -/
theorem recordClicks_two (O : Float64Ops) (src : RandSource O) (offerList : List String)
    (clickCounts : List (String × Int)) (calls : Nat) (first second : String)
    (hfirst : offerList[0]? = some first) (hsecond : offerList[1]? = some second) :
    recordClicks O src offerList clickCounts calls =
      if O.lt (src.float64 calls) O.lit03 then
        if O.lt (src.float64 (calls + 1)) O.lit05 then
          .ok (clickCountsIncr (clickCountsIncr clickCounts first) second, calls + 2)
        else .ok (clickCountsIncr clickCounts first, calls + 2)
      else .ok (clickCounts, calls + 1) := by
  simp only [recordClicks, hfirst, hsecond]

/-- The outcome of the click recording on a ranking with a single entry. -/
theorem recordClicks_one (O : Float64Ops) (src : RandSource O) (first : String)
    (clickCounts : List (String × Int)) (calls : Nat) :
    recordClicks O src [first] clickCounts calls =
      if O.lt (src.float64 calls) O.lit03 then .error .indexOutOfRange
      else .ok (clickCounts, calls + 1) := by
  simp [recordClicks]


theorem clickCountsGet_incr (m : List (String × Int)) (k x : String) :
    clickCountsGet (clickCountsIncr m k) x
      = clickCountsGet m x + (if x = k then 1 else 0) := by
  induction m with
  | nil =>
    by_cases h : k = x
    · simp [clickCountsIncr, clickCountsGet, h]
    · have h' : ¬ x = k := fun e => h e.symm
      simp [clickCountsIncr, clickCountsGet, h, h']
  | cons e rest ih =>
    obtain ⟨a, v⟩ := e
    by_cases hak : a = k
    · by_cases hax : a = x
      · have hxk : x = k := hax ▸ hak
        simp [clickCountsIncr, clickCountsGet, hak, hxk]
      · have hxk : ¬ x = k := fun e => hax (hak.trans e.symm)
        have hkx : ¬ k = x := fun e => hxk e.symm
        simp [clickCountsIncr, clickCountsGet, hak, hxk, hkx]
    · by_cases hax : a = x
      · have hxk : ¬ x = k := fun e => hak (hax.trans e)
        simp [clickCountsIncr, clickCountsGet, hak, hax, hxk]
      · simp [clickCountsIncr, clickCountsGet, hak, hax, ih]

theorem sumCounters_incr (m : List (String × Int)) (k : String) :
    sumCounters (clickCountsIncr m k) = sumCounters m + 1 := by
  induction m with
  | nil => simp [clickCountsIncr, sumCounters]
  | cons e rest ih =>
    obtain ⟨a, v⟩ := e
    by_cases hak : a = k
    · simp only [clickCountsIncr, hak, if_true, sumCounters, List.map_cons, List.sum_cons]
      omega
    · simp only [sumCounters] at ih
      simp only [clickCountsIncr, hak, if_false, sumCounters, List.map_cons, List.sum_cons, ih]
      omega

/-- A trial that does not fault has recorded the clicks on its own ranking. -/
theorem trial_clicks (O : Float64Ops) (src : RandSource O) (targetRatios : String → O.F)
    (s s' : SimState) (h : trial O src targetRatios s = .ok s') :
    ∃ offerList,
      GenerateNonRepeatingOffers s.choices (fun k => src.intn (s.calls + k))
        s.choices.length = .ok offerList ∧
      recordClicks O src offerList s.clickCounts (s.calls + offerList.length)
        = .ok (s'.clickCounts, s'.calls) := by
  unfold trial at h
  cases hg : GenerateNonRepeatingOffers s.choices (fun k => src.intn (s.calls + k))
      s.choices.length with
  | error e => simp [hg] at h
  | ok offerList =>
    simp only [hg] at h
    cases hr : recordClicks O src offerList s.clickCounts (s.calls + offerList.length) with
    | error e => simp [hr] at h
    | ok r =>
      obtain ⟨cc, calls⟩ := r
      simp only [hr, Except.ok.injEq] at h
      subst h
      exact ⟨offerList, rfl, hr⟩

/-- The click recording only raises counters, by two in all at most. -/
theorem recordClicks_monotone (O : Float64Ops) (src : RandSource O) (offerList : List String)
    (cc cc' : List (String × Int)) (calls calls' : Nat)
    (h : recordClicks O src offerList cc calls = .ok (cc', calls')) :
    (∀ key, clickCountsGet cc key ≤ clickCountsGet cc' key) ∧
    sumCounters cc ≤ sumCounters cc' ∧ sumCounters cc' ≤ sumCounters cc + 2 := by
  unfold recordClicks at h
  cases hf : offerList[0]? with
  | none => simp [hf] at h
  | some first =>
    simp only [hf] at h
    by_cases h1 : O.lt (src.float64 calls) O.lit03 = true
    · simp only [h1, if_true] at h
      cases hs : offerList[1]? with
      | none => simp [hs] at h
      | some second =>
        simp only [hs] at h
        by_cases h2 : O.lt (src.float64 (calls + 1)) O.lit05 = true
        · simp only [h2, if_true, Except.ok.injEq, Prod.mk.injEq] at h
          obtain ⟨hcc, _⟩ := h
          subst hcc
          refine ⟨?_, ?_, ?_⟩
          · intro key
            rw [clickCountsGet_incr, clickCountsGet_incr]
            split_ifs <;> omega
          · rw [sumCounters_incr, sumCounters_incr]; omega
          · rw [sumCounters_incr, sumCounters_incr]; omega
        · simp only [h2, Bool.false_eq_true, if_false, Except.ok.injEq, Prod.mk.injEq] at h
          obtain ⟨hcc, _⟩ := h
          subst hcc
          refine ⟨?_, ?_, ?_⟩
          · intro key
            rw [clickCountsGet_incr]
            split_ifs <;> omega
          · rw [sumCounters_incr]; omega
          · rw [sumCounters_incr]; omega
    · simp only [h1, Bool.false_eq_true, if_false, Except.ok.injEq, Prod.mk.injEq] at h
      obtain ⟨hcc, _⟩ := h
      subst hcc
      exact ⟨fun _ => Int.le_refl _, Int.le_refl _, by omega⟩

theorem trial_counters (O : Float64Ops) (src : RandSource O) (targetRatios : String → O.F)
    (s s' : SimState) (h : trial O src targetRatios s = .ok s') :
    (∀ key, clickCountsGet s.clickCounts key ≤ clickCountsGet s'.clickCounts key) ∧
    sumCounters s.clickCounts ≤ sumCounters s'.clickCounts ∧
    sumCounters s'.clickCounts ≤ sumCounters s.clickCounts + 2 := by
  obtain ⟨offerList, _, hr⟩ := trial_clicks O src targetRatios s s' h
  exact recordClicks_monotone O src offerList _ _ _ _ hr

theorem trialLoop_counters (O : Float64Ops) (src : RandSource O)
    (targetRatios : String → O.F) (n : Nat) (s s' : SimState)
    (h : trialLoop O src targetRatios n s = .ok s') :
    (∀ key, clickCountsGet s.clickCounts key ≤ clickCountsGet s'.clickCounts key) ∧
    sumCounters s.clickCounts ≤ sumCounters s'.clickCounts ∧
    sumCounters s'.clickCounts ≤ sumCounters s.clickCounts + 2 * (n : Int) := by
  induction n generalizing s with
  | zero =>
    simp only [trialLoop, Except.ok.injEq] at h
    subst h
    exact ⟨fun _ => Int.le_refl _, Int.le_refl _, by simp⟩
  | succ n ih =>
    simp only [trialLoop] at h
    cases ht : trial O src targetRatios s with
    | error e => simp [ht] at h
    | ok s1 =>
      simp only [ht] at h
      obtain ⟨a1, a2, a3⟩ := trial_counters O src targetRatios s s1 ht
      obtain ⟨b1, b2, b3⟩ := ih s1 h
      refine ⟨fun key => Int.le_trans (a1 key) (b1 key), by omega, ?_⟩
      push_cast
      omega

theorem clickCountsGet_initial (key : String) :
    clickCountsGet initialClickCounts key = 0 := by
  simp only [initialClickCounts, clickCountsGet]
  split_ifs <;> rfl


/-- For the four identifiers that `totalClicks` adds up, a non-negative counter is at most
`totalClicks`. -/
theorem tracked_count_le_totalClicks (cc : List (String × Int))
    (h0 : ∀ key, 0 ≤ clickCountsGet cc key) (item : String)
    (hitem : item = "A" ∨ item = "B" ∨ item = "C" ∨ item = "D") :
    0 ≤ clickCountsGet cc item ∧ clickCountsGet cc item ≤ totalClicks cc := by
  have hA := h0 "A"
  have hB := h0 "B"
  have hC := h0 "C"
  have hD := h0 "D"
  refine ⟨h0 item, ?_⟩
  unfold totalClicks
  rcases hitem with rfl | rfl | rfl | rfl <;> omega


/-! ## Claims on the weighted sampler -/

/-- C2, as stated, fails when the running total wraps around. On the weights 5, `2^63-1`,
`2^63-1`, 10 (none negative) the table of the code is 5, `-2^63+4`, 3, 13 and the total is
13. The draw `r = 3` equals the cumulative sum of item 2 and yet selects item 0, and the
draw `r = 7` selects D although the exact cumulative weight 5 + (2^63 - 1) of B already
exceeds 7. -/
theorem Pick_half_open_interval_wraps :
    (∀ c ∈ wrappedChoices, 0 ≤ c.Weight) ∧
    (NewWeightedRandomPicker wrappedChoices).cumSum = [5, -9223372036854775804, 3, 13] ∧
    (NewWeightedRandomPicker wrappedChoices).total = 13 ∧
    (NewWeightedRandomPicker wrappedChoices).cumSum[2]? = some 3 ∧
    wrappedChoices[0]? = some ⟨"A", 5⟩ ∧
    Pick (NewWeightedRandomPicker wrappedChoices) 3 = .ok "A" ∧
    Pick (NewWeightedRandomPicker wrappedChoices) 7 = .ok "D" ∧
    (7 : Int) < 5 + 9223372036854775807 := by
  refine ⟨by decide, by decide, by decide, by decide, by decide, by decide, by decide,
    by decide⟩

/-- C2, amended: half-open interval rule of `Pick` when the running total does not wrap.
For a working set without negative weights whose weights sum to less than `2^63`, and a
draw `r` with `0 ≤ r < total`, `Pick` returns the identifier of the item at the first
index `j` whose cumulative sum exceeds `r`: the entry at `j` is above `r`, every earlier
entry is at most `r`, and an index whose cumulative sum equals `r` lies strictly before
`j`. For the weights A=4, B=2, C=2, D=1 the draw `r = 4` yields B. -/
theorem Pick_half_open_interval :
    (∀ (choices : List Choice) (r : Int), (∀ c ∈ choices, 0 ≤ c.Weight) →
      (choices.map Choice.Weight).sum < 9223372036854775808 → 0 ≤ r →
      r < (NewWeightedRandomPicker choices).total →
      ∃ (j : Nat) (c : Choice), choices[j]? = some c ∧
        Pick (NewWeightedRandomPicker choices) r = .ok c.Item ∧
        (∃ s, (NewWeightedRandomPicker choices).cumSum[j]? = some s ∧ r < s) ∧
        (∀ k, k < j → ∀ s, (NewWeightedRandomPicker choices).cumSum[k]? = some s → s ≤ r) ∧
        (∀ i, (NewWeightedRandomPicker choices).cumSum[i]? = some r → j > i)) ∧
    Pick (NewWeightedRandomPicker mainChoices) 4 = .ok "B" := by
  refine ⟨?_, by decide⟩
  intro choices r hw hfit h0 hr
  obtain ⟨j, c, hc, hp, ⟨s, hs, hrs⟩, hb⟩ := Pick_first choices r (by omega)
  rw [Int.emod_eq_of_lt h0 hr] at hrs hb
  refine ⟨j, c, hc, hp, ⟨s, hs, hrs⟩, hb, ?_⟩
  intro i hi
  by_contra hji
  have := cumSum_mono choices hw hfit j i (by omega) s r hs hi
  omega

/-- Witness of C2 at the dataset of `main` and the boundary draw `r = 4`. -/
theorem Pick_half_open_interval_witness :
    (∀ c ∈ mainChoices, 0 ≤ c.Weight) ∧
    (mainChoices.map Choice.Weight).sum < 9223372036854775808 ∧ (0 : Int) ≤ 4 ∧
    4 < (NewWeightedRandomPicker mainChoices).total ∧
    ∃ (j : Nat) (c : Choice), mainChoices[j]? = some c ∧
      Pick (NewWeightedRandomPicker mainChoices) 4 = .ok c.Item ∧
      (∃ s, (NewWeightedRandomPicker mainChoices).cumSum[j]? = some s ∧ 4 < s) ∧
      (∀ k, k < j → ∀ s, (NewWeightedRandomPicker mainChoices).cumSum[k]? = some s → s ≤ 4) ∧
      (∀ i, (NewWeightedRandomPicker mainChoices).cumSum[i]? = some 4 → j > i) :=
  ⟨by decide, by decide, by decide, by decide,
    Pick_half_open_interval.1 mainChoices 4 (by decide) (by decide) (by decide) (by decide)⟩

/-- C3, as stated, fails when the running total wraps around. On the weights 5, `2^63-1`,
`2^63-1`, 10 (unique identifiers, none negative) the total of the code is 13: of the 13
draws of `[0, 13)`, 8 return D, whose weight is 10, and none returns B, whose weight is
`2^63 - 1`. -/
theorem Pick_selection_count_wraps :
    (∀ c ∈ wrappedChoices, 0 ≤ c.Weight) ∧ (wrappedChoices.map Choice.Item).Nodup ∧
    (NewWeightedRandomPicker wrappedChoices).total = 13 ∧
    (⟨"D", 10⟩ : Choice) ∈ wrappedChoices ∧
    ((Finset.Ico 0 (NewWeightedRandomPicker wrappedChoices).total).filter
        (fun r => Pick (NewWeightedRandomPicker wrappedChoices) r = .ok "D")).card = 8 ∧
    (⟨"B", 9223372036854775807⟩ : Choice) ∈ wrappedChoices ∧
    ((Finset.Ico 0 (NewWeightedRandomPicker wrappedChoices).total).filter
        (fun r => Pick (NewWeightedRandomPicker wrappedChoices) r = .ok "B")).card = 0 := by
  refine ⟨by decide, by decide, by decide, by decide, by decide, by decide, by decide⟩

/-- C3, amended: exact selection probability `weight / total`, by counting, when the
running total does not wrap. For a working set with unique identifiers and no negative
weight whose weights sum to less than `2^63`, the number of integers `r` of `[0, total)`
for which `Pick` returns the identifier of an item is exactly the weight of that item; an
item of weight 0 is returned for no `r` of `[0, total)`. -/
theorem Pick_selection_count (choices : List Choice) (hw : ∀ c ∈ choices, 0 ≤ c.Weight)
    (hfit : (choices.map Choice.Weight).sum < 9223372036854775808)
    (hnd : (choices.map Choice.Item).Nodup) (c : Choice) (hc : c ∈ choices) :
    (((Finset.Ico 0 (NewWeightedRandomPicker choices).total).filter
        (fun r => Pick (NewWeightedRandomPicker choices) r = .ok c.Item)).card : Int)
      = c.Weight ∧
    (c.Weight = 0 → ∀ r, 0 ≤ r → r < (NewWeightedRandomPicker choices).total →
      Pick (NewWeightedRandomPicker choices) r ≠ .ok c.Item) := by
  have hfilter : (Finset.Ico 0 (NewWeightedRandomPicker choices).total).filter
        (fun r => Pick (NewWeightedRandomPicker choices) r = .ok c.Item)
      = (Finset.Ico 0 (0 + (choices.map Choice.Weight).sum)).filter
        (fun r => ownerOf r 0 choices = c.Item) := by
    rw [total_eq choices hw hfit, zero_add]
    apply Finset.filter_congr
    intro r hr
    have hr' := Finset.mem_Ico.1 hr
    rw [Pick_eq_ownerOf choices hw hfit r hr'.1
      (by rw [total_eq choices hw hfit]; exact hr'.2)]
    simp
  have hcount := card_ownerOf choices 0 hw hnd c hc
  rw [← hfilter] at hcount
  refine ⟨hcount, ?_⟩
  intro hz r h0 hr hpick
  rw [hz] at hcount
  have hempty := Finset.card_eq_zero.1 (by exact_mod_cast hcount)
  have hmem : r ∈ (Finset.Ico 0 (NewWeightedRandomPicker choices).total).filter
      (fun r => Pick (NewWeightedRandomPicker choices) r = .ok c.Item) :=
    Finset.mem_filter.2 ⟨Finset.mem_Ico.2 ⟨h0, hr⟩, hpick⟩
  rw [hempty] at hmem
  simp at hmem

/-- Witness of C3 at the dataset of `main` and the item B of weight 2. -/
theorem Pick_selection_count_witness :
    (∀ c ∈ mainChoices, 0 ≤ c.Weight) ∧
    (mainChoices.map Choice.Weight).sum < 9223372036854775808 ∧
    (mainChoices.map Choice.Item).Nodup ∧
    (⟨"B", 2⟩ : Choice) ∈ mainChoices ∧
    (((Finset.Ico 0 (NewWeightedRandomPicker mainChoices).total).filter
        (fun r => Pick (NewWeightedRandomPicker mainChoices) r = .ok "B")).card : Int) = 2 :=
  ⟨by decide, by decide, by decide, by decide,
    (Pick_selection_count mainChoices (by decide) (by decide) (by decide) ⟨"B", 2⟩
      (by decide)).1⟩

/-- C4, as stated, fails: on the empty working set, and on a working set of total 0, the
call does not end with the `InvalidInput` error of the spec but with the runtime panic of
`rand.Intn`. -/
theorem Pick_no_invalidInput_error :
    Pick (NewWeightedRandomPicker []) 0 ≠ .error .invalidInput ∧
    Pick (NewWeightedRandomPicker []) 0 = .error .intnInvalidArgument ∧
    (NewWeightedRandomPicker [⟨"A", 0⟩]).total = 0 ∧
    Pick (NewWeightedRandomPicker [⟨"A", 0⟩]) 0 ≠ .error .invalidInput ∧
    Pick (NewWeightedRandomPicker [⟨"A", 0⟩]) 0 = .error .intnInvalidArgument := by
  refine ⟨by decide, by decide, by decide, by decide, by decide⟩

/-- C4, amended: a violated precondition of the sampler stops the call in a runtime
panic. On a working set that is empty or whose total is `≤ 0`, `Pick` does not return: it
stops with the panic that `rand.Intn` raises on an invalid argument, whatever the random
source; it returns no identifier, not the empty one either, and reports no `InvalidInput`
error. -/
theorem Pick_precondition_violation_panics (choices : List Choice) (raw : Int)
    (h : choices = [] ∨ (NewWeightedRandomPicker choices).total ≤ 0) :
    Pick (NewWeightedRandomPicker choices) raw = .error .intnInvalidArgument ∧
    (∀ s, Pick (NewWeightedRandomPicker choices) raw ≠ .ok s) ∧
    Pick (NewWeightedRandomPicker choices) raw ≠ .ok "" ∧
    Pick (NewWeightedRandomPicker choices) raw ≠ .error .invalidInput := by
  have ht : (NewWeightedRandomPicker choices).total ≤ 0 := by
    rcases h with rfl | h
    · simp [NewWeightedRandomPicker, sumLoop]
    · exact h
  have hp : Pick (NewWeightedRandomPicker choices) raw = .error .intnInvalidArgument := by
    simp [Pick, Intn, ht]
  refine ⟨hp, ?_, ?_, ?_⟩
  · intro s; rw [hp]; simp
  · rw [hp]; simp
  · rw [hp]; simp

/-- Witness of C4 on the empty working set. -/
theorem Pick_precondition_violation_panics_witness :
    Pick (NewWeightedRandomPicker []) 0 = .error .intnInvalidArgument ∧
    (∀ s, Pick (NewWeightedRandomPicker []) 0 ≠ .ok s) ∧
    Pick (NewWeightedRandomPicker []) 0 ≠ .ok "" ∧
    Pick (NewWeightedRandomPicker []) 0 ≠ .error .invalidInput :=
  Pick_precondition_violation_panics [] 0 (Or.inl rfl)

/-! ## Claims on the ranking generator -/

/-- C1, as stated, fails when the running total wraps around. On the two items A of
weight `2^63 - 1` and B of weight 1, both at least 1, the total of the code is `-2^63`:
`rand.Intn` panics in the first iteration and no sequence is returned, whatever the random
source and the iteration budget. -/
theorem GenerateNonRepeatingOffers_overflow :
    overflowChoices ≠ [] ∧ (∀ c ∈ overflowChoices, 1 ≤ c.Weight) ∧
    (NewWeightedRandomPicker overflowChoices).total = -9223372036854775808 ∧
    GenerateNonRepeatingOffers overflowChoices (replay [0, 0]) 2
      = .error .intnInvalidArgument ∧
    ∀ (rng : Nat → Int) (fuel : Nat) (offers : List String),
      GenerateNonRepeatingOffers overflowChoices rng fuel ≠ .ok offers := by
  refine ⟨by decide, by decide, by decide, by decide, ?_⟩
  intro rng fuel offers
  have htot : (NewWeightedRandomPicker overflowChoices).total ≤ 0 := by decide
  have hlen : (offerLoopInit overflowChoices).remainingOffers.length > 0 := by decide
  cases fuel with
  | zero => simp [GenerateNonRepeatingOffers, offerLoop, hlen]
  | succ fuel =>
    have hp : Pick (NewWeightedRandomPicker (offerLoopInit overflowChoices).remainingOffers)
        (rng (offerLoopInit overflowChoices).calls) = .error .intnInvalidArgument := by
      simp only [offerLoopInit, Pick, Intn, htot, if_true]
    simp [GenerateNonRepeatingOffers, offerLoop, hlen, offerLoopBody, hp]

/-- C1, amended: permutation property of `GenerateNonRepeatingOffers` when the running
total does not wrap. Whenever the call returns, the returned sequence is a permutation of
the input identifiers. For every list of choices whose weights are all at least 1 and sum
to less than `2^63`, and every random source, the call does return (given `len(choices)`
loop iterations or more), and the permutation has the length of the input, holds every
input identifier, and has no duplicates when the input identifiers are unique. -/
theorem GenerateNonRepeatingOffers_permutation (choices : List Choice) (rng : Nat → Int)
    (fuel : Nat) :
    (∀ offers, GenerateNonRepeatingOffers choices rng fuel = .ok offers →
      offers.Perm (choices.map Choice.Item)) ∧
    ((∀ c ∈ choices, 1 ≤ c.Weight) →
      (choices.map Choice.Weight).sum < 9223372036854775808 → choices.length ≤ fuel →
      ∃ offers, GenerateNonRepeatingOffers choices rng fuel = .ok offers ∧
        offers.Perm (choices.map Choice.Item) ∧
        offers.length = choices.length ∧
        (∀ c ∈ choices, c.Item ∈ offers) ∧
        ((choices.map Choice.Item).Nodup → offers.Nodup)) := by
  have hperm : ∀ offers, GenerateNonRepeatingOffers choices rng fuel = .ok offers →
      offers.Perm (choices.map Choice.Item) := by
    intro offers hg
    unfold GenerateNonRepeatingOffers at hg
    cases hl : offerLoop rng fuel (offerLoopInit choices) with
    | error e => simp [hl] at hg
    | ok s' =>
      simp only [hl, Except.ok.injEq] at hg
      obtain ⟨_, _, suffix, hsuf, hp⟩ := offerLoop_ok rng fuel _ s' hl
      simp only [offerLoopInit, List.nil_append] at hsuf hp
      rw [← hg, hsuf]
      exact hp
  refine ⟨hperm, ?_⟩
  intro h1 hfit hf
  obtain ⟨s', hs'⟩ := offerLoop_total rng fuel (offerLoopInit choices) h1 hfit hf
  have hg : GenerateNonRepeatingOffers choices rng fuel = .ok s'.selectedOffers := by
    simp [GenerateNonRepeatingOffers, hs']
  have hp := hperm _ hg
  refine ⟨s'.selectedOffers, hg, hp, ?_, ?_, ?_⟩
  · rw [hp.length_eq, List.length_map]
  · intro c hc
    exact hp.symm.subset (List.mem_map_of_mem Choice.Item hc)
  · intro hnd
    exact hp.nodup_iff.2 hnd

/-- Witness of C1 at the dataset of `main` with the draws 4, 0, 2, 0. -/
theorem GenerateNonRepeatingOffers_permutation_witness :
    (∀ c ∈ mainChoices, 1 ≤ c.Weight) ∧
    (mainChoices.map Choice.Weight).sum < 9223372036854775808 ∧ mainChoices.length ≤ 4 ∧
    ∃ offers, GenerateNonRepeatingOffers mainChoices (replay [4, 0, 2, 0]) 4 = .ok offers ∧
      offers.Perm (mainChoices.map Choice.Item) ∧
      offers.length = mainChoices.length ∧
      (∀ c ∈ mainChoices, c.Item ∈ offers) ∧
      ((mainChoices.map Choice.Item).Nodup → offers.Nodup) :=
  ⟨by decide, by decide, by decide,
    (GenerateNonRepeatingOffers_permutation mainChoices (replay [4, 0, 2, 0]) 4).2
      (by decide) (by decide) (by decide)⟩

/-- C8, as stated, fails when the running total wraps around. On the two items A of
weight `2^63 - 1` and B of weight 1 the first iteration of the loop already stops in
`rand.Intn`, so the loop does not run its 2 iterations: the sampler, invoked once, does
not return, and the remainder is never shrunk. -/
theorem offerLoop_overflow :
    (∀ c ∈ overflowChoices, 1 ≤ c.Weight) ∧ overflowChoices.length = 2 ∧
    offerLoopBody (replay [0, 0]) (offerLoopInit overflowChoices)
      = .error .intnInvalidArgument ∧
    offerLoop (replay [0, 0]) 2 (offerLoopInit overflowChoices)
      = .error .intnInvalidArgument ∧
    offerLoopAfter (replay [0, 0]) 1 (offerLoopInit overflowChoices) = none := by
  refine ⟨by decide, by decide, by decide, by decide, by decide⟩

/-- C8, amended: termination of `GenerateNonRepeatingOffers` when the running total does
not wrap. On an `n`-item list whose weights are all at least 1 and sum to less than `2^63`
the ranking loop runs exactly `n` iterations, for every random source: with a budget of
`n` iterations or more it completes, having invoked the sampler exactly `n` times and
emptied the remainder; with a smaller budget it is still running; and one iteration on a
non-empty remainder shrinks it by exactly one entry. -/
theorem GenerateNonRepeatingOffers_terminates (choices : List Choice)
    (h1 : ∀ c ∈ choices, 1 ≤ c.Weight)
    (hfit : (choices.map Choice.Weight).sum < 9223372036854775808) (rng : Nat → Int) :
    (∀ fuel, choices.length ≤ fuel →
      ∃ s', offerLoop rng fuel (offerLoopInit choices) = .ok s' ∧
        s'.calls = choices.length ∧ s'.remainingOffers = [] ∧
        s'.selectedOffers.length = choices.length ∧
        GenerateNonRepeatingOffers choices rng fuel = .ok s'.selectedOffers) ∧
    (∀ fuel, fuel < choices.length →
      offerLoop rng fuel (offerLoopInit choices) = .error .outOfFuel) ∧
    (∀ s : OfferLoopState, s.remainingOffers ≠ [] →
      (∀ c ∈ s.remainingOffers, 1 ≤ c.Weight) →
      (s.remainingOffers.map Choice.Weight).sum < 9223372036854775808 →
      ∃ s1, offerLoopBody rng s = .ok s1 ∧
        s1.remainingOffers.length + 1 = s.remainingOffers.length ∧
        s1.calls = s.calls + 1 ∧ (∀ c ∈ s1.remainingOffers, 1 ≤ c.Weight) ∧
        (s1.remainingOffers.map Choice.Weight).sum < 9223372036854775808) := by
  refine ⟨?_, ?_, ?_⟩
  · intro fuel hf
    obtain ⟨s', hs'⟩ := offerLoop_total rng fuel (offerLoopInit choices) h1 hfit hf
    obtain ⟨hnil, hcalls, suffix, hsuf, hperm⟩ := offerLoop_ok rng fuel _ s' hs'
    simp only [offerLoopInit, List.nil_append, Nat.zero_add] at hsuf hperm hcalls
    refine ⟨s', hs', hcalls, hnil, ?_, by simp [GenerateNonRepeatingOffers, hs']⟩
    rw [hsuf, hperm.length_eq, List.length_map]
  · intro fuel hf
    exact offerLoop_short rng fuel (offerLoopInit choices) h1 hfit hf
  · intro s hne hs1 hsfit
    obtain ⟨s1, hb⟩ := offerLoopBody_ok_of_pos rng s
      (total_pos_of_weights _ hs1 hsfit hne)
    obtain ⟨c, hc, hrem, _, hcalls⟩ := offerLoopBody_ok rng s s1 hb
    have hle := sum_removeSelected_le c.Item s.remainingOffers
      (fun d hd => by have := hs1 d hd; omega)
    refine ⟨s1, hb, ?_, hcalls, ?_, ?_⟩
    · rw [hrem]; exact removeSelected_length c.Item s.remainingOffers ⟨c, hc, rfl⟩
    · rw [hrem]; exact fun x hx => hs1 x (removeSelected_subset _ _ x hx)
    · rw [hrem]; omega

/-- Witness of C8 at the dataset of `main` (n = 4) with the draws 4, 0, 2, 0. -/
theorem GenerateNonRepeatingOffers_terminates_witness :
    (∀ c ∈ mainChoices, 1 ≤ c.Weight) ∧
    (mainChoices.map Choice.Weight).sum < 9223372036854775808 ∧
    (∃ s', offerLoop (replay [4, 0, 2, 0]) 4 (offerLoopInit mainChoices) = .ok s' ∧
        s'.calls = 4 ∧ s'.remainingOffers = [] ∧ s'.selectedOffers.length = 4 ∧
        GenerateNonRepeatingOffers mainChoices (replay [4, 0, 2, 0]) 4
          = .ok s'.selectedOffers) ∧
    offerLoop (replay [4, 0, 2, 0]) 3 (offerLoopInit mainChoices) = .error .outOfFuel :=
  ⟨by decide, by decide,
    (GenerateNonRepeatingOffers_terminates mainChoices (by decide) (by decide)
      (replay [4, 0, 2, 0])).1 4 (by decide),
    (GenerateNonRepeatingOffers_terminates mainChoices (by decide) (by decide)
      (replay [4, 0, 2, 0])).2.1 3 (by decide)⟩

/-- C10: determinism under fixed entropy. `Pick` depends on the random source only through
the draw `raw % total`, and `GenerateNonRepeatingOffers` only through the first
`len(choices)` draws: equal inputs and equal draws give equal outputs. For the choices
A=4, B=2, C=2, D=1 and the draws 4, 0, 2, 0 the ranking is exactly [B, A, D, C]. -/
theorem Pick_and_ranking_deterministic :
    (∀ (p : WeightedRandomPicker) (raw1 raw2 : Int),
      raw1 % p.total = raw2 % p.total → Pick p raw1 = Pick p raw2) ∧
    (∀ (choices : List Choice) (rng1 rng2 : Nat → Int) (fuel : Nat),
      (∀ k, k < choices.length → rng1 k = rng2 k) →
      GenerateNonRepeatingOffers choices rng1 fuel
        = GenerateNonRepeatingOffers choices rng2 fuel) ∧
    GenerateNonRepeatingOffers mainChoices (replay [4, 0, 2, 0]) 4
      = .ok ["B", "A", "D", "C"] := by
  refine ⟨Pick_congr_draw, ?_, by decide⟩
  intro choices rng1 rng2 fuel h
  have := offerLoop_congr rng1 rng2 fuel (offerLoopInit choices)
    (fun k _ hk => h k (by simpa [offerLoopInit] using hk))
  simp [GenerateNonRepeatingOffers, this]

/-- Witness of C10: two sources that agree on the four draws 4, 0, 2, 0 and differ
afterwards, and two raw values with the same draw modulo the total 9. -/
theorem Pick_and_ranking_deterministic_witness :
    ((13 : Int) % (NewWeightedRandomPicker mainChoices).total
        = 4 % (NewWeightedRandomPicker mainChoices).total ∧
      Pick (NewWeightedRandomPicker mainChoices) 13
        = Pick (NewWeightedRandomPicker mainChoices) 4) ∧
    (∀ k, k < mainChoices.length → replay [4, 0, 2, 0, 7] k = replay [4, 0, 2, 0] k) ∧
    GenerateNonRepeatingOffers mainChoices (replay [4, 0, 2, 0, 7]) 4
      = GenerateNonRepeatingOffers mainChoices (replay [4, 0, 2, 0]) 4 :=
  ⟨⟨by decide, Pick_and_ranking_deterministic.1 _ 13 4 (by decide)⟩,
    by decide,
    Pick_and_ranking_deterministic.2.1 mainChoices (replay [4, 0, 2, 0, 7])
      (replay [4, 0, 2, 0]) 4 (by decide)⟩

/-! ## Claims on the adaptation step -/

/-- C5: weight floor of the adaptation step in `SimulateClicks`. Whatever the click counts
and the target table, an adjustment that lowers a weight leaves it at 1 or more; hence,
for every random source and target table, if every weight of the persistent list is at
least 1 before a trial it is so after the trial, and if it is so before the run it is so
in the final state of a run of any number of trials. -/
theorem SimulateClicks_weight_floor (O : Float64Ops) (src : RandSource O)
    (targetRatios : String → O.F) :
    (∀ (clickCounts : List (String × Int)) (total : Int) (c : Choice),
      (adjustWeight O clickCounts targetRatios total c).Weight < c.Weight →
      1 ≤ (adjustWeight O clickCounts targetRatios total c).Weight) ∧
    (∀ (clickCounts : List (String × Int)) (choices : List Choice),
      (∀ c ∈ choices, 1 ≤ c.Weight) →
      ∀ c ∈ adjustWeights O clickCounts targetRatios choices, 1 ≤ c.Weight) ∧
    (∀ s s' : SimState, trial O src targetRatios s = .ok s' →
      (∀ c ∈ s.choices, 1 ≤ c.Weight) → ∀ c ∈ s'.choices, 1 ≤ c.Weight) ∧
    (∀ (choices : List Choice) (iterations : Int) (final : SimState),
      (∀ c ∈ choices, 1 ≤ c.Weight) →
      SimulateClicks O src choices targetRatios iterations = .ok final →
      ∀ c ∈ final.choices, 1 ≤ c.Weight) := by
  refine ⟨?_, ?_, ?_, ?_⟩
  · intro cc t c
    exact (adjustWeight_floor O cc targetRatios t c).1
  · intro cc choices h1
    exact adjustWeights_floor O cc targetRatios choices h1
  · intro s s' h h1
    exact trial_floor O src targetRatios s s' h h1
  · intro choices iterations final h1 h
    exact trialLoop_floor O src targetRatios _ _ final h h1

/-- Witness of C5: three trials on the dataset of `main`, in which A is lowered from 4 to 1
and B from 2 to 1 and then held at 1. -/
theorem SimulateClicks_weight_floor_witness :
    (∀ c ∈ mainChoices, 1 ≤ c.Weight) ∧
    SimulateClicks fracOps mainSource mainChoices mainTargets 3
      = .ok ⟨[⟨"A", 1⟩, ⟨"B", 1⟩, ⟨"C", 5⟩, ⟨"D", 4⟩],
          [("A", 1), ("B", 1), ("C", 0), ("D", 0)], 16⟩ ∧
    ∀ c ∈ [(⟨"A", 1⟩ : Choice), ⟨"B", 1⟩, ⟨"C", 5⟩, ⟨"D", 4⟩], 1 ≤ c.Weight :=
  ⟨by decide, by decide,
    (SimulateClicks_weight_floor fracOps mainSource mainTargets).2.2.2 mainChoices 3
      ⟨[⟨"A", 1⟩, ⟨"B", 1⟩, ⟨"C", 5⟩, ⟨"D", 4⟩], [("A", 1), ("B", 1), ("C", 0), ("D", 0)], 16⟩
      (by decide) (by decide)⟩

/-- C6: zero-click guard. For every trial of `SimulateClicks` after which `totalClicks` is
0, the persistent list is identical to the list before the trial: the adjustment, and with
it the division by `totalClicks`, is skipped. -/
theorem SimulateClicks_zero_click_guard (O : Float64Ops) (src : RandSource O)
    (targetRatios : String → O.F) (s s' : SimState)
    (h : trial O src targetRatios s = .ok s') (hz : totalClicks s'.clickCounts = 0) :
    s'.choices = s.choices ∧
    adjustWeights O s'.clickCounts targetRatios s.choices = s.choices := by
  have hadj : adjustWeights O s'.clickCounts targetRatios s.choices = s.choices := by
    simp [adjustWeights, hz]
  exact ⟨(trial_ok O src targetRatios s s' h).trans hadj, hadj⟩

/-- Witness of C6: a trial on the dataset of `main` in which no click is recorded. -/
theorem SimulateClicks_zero_click_guard_witness :
    trial fracOps quietSource mainTargets ⟨mainChoices, initialClickCounts, 0⟩
      = .ok ⟨mainChoices, initialClickCounts, 5⟩ ∧
    totalClicks initialClickCounts = 0 ∧
    (⟨mainChoices, initialClickCounts, 5⟩ : SimState).choices = mainChoices :=
  ⟨by decide, by decide,
    (SimulateClicks_zero_click_guard fracOps quietSource mainTargets
      ⟨mainChoices, initialClickCounts, 0⟩ ⟨mainChoices, initialClickCounts, 5⟩
      (by decide) (by decide)).1⟩

/-- C7: sign rule of the per-trial adjustment. In a trial that ends with `totalClicks > 0`,
the list keeps its length and identifiers and, for the item at every index, with
`actualRatio = float64(clickCounts[item]) / float64(totalClicks)`: if `actualRatio <
targetRatio` the new weight is the old weight plus 1; if `actualRatio > targetRatio` it is
the old weight minus 1 when the old weight exceeds 1, and the old weight otherwise; if
neither holds, in particular if the two are equal, the weight is unchanged. In every case
the weight changes by at most 1. -/
theorem SimulateClicks_sign_rule (O : Float64Ops) (src : RandSource O)
    (targetRatios : String → O.F) (s s' : SimState)
    (h : trial O src targetRatios s = .ok s') (hpos : 0 < totalClicks s'.clickCounts) :
    s'.choices.length = s.choices.length ∧
    ∀ (j : Nat) (old new : Choice), s.choices[j]? = some old → s'.choices[j]? = some new →
      new.Item = old.Item ∧
      (O.lt (O.div (O.ofInt (clickCountsGet s'.clickCounts old.Item))
          (O.ofInt (totalClicks s'.clickCounts))) (targetRatios old.Item) = true →
        new.Weight = old.Weight + 1) ∧
      (O.lt (targetRatios old.Item) (O.div (O.ofInt (clickCountsGet s'.clickCounts old.Item))
          (O.ofInt (totalClicks s'.clickCounts))) = true →
        new.Weight = if old.Weight > 1 then old.Weight - 1 else old.Weight) ∧
      (O.div (O.ofInt (clickCountsGet s'.clickCounts old.Item))
          (O.ofInt (totalClicks s'.clickCounts)) = targetRatios old.Item →
        new.Weight = old.Weight) ∧
      (O.lt (O.div (O.ofInt (clickCountsGet s'.clickCounts old.Item))
          (O.ofInt (totalClicks s'.clickCounts))) (targetRatios old.Item) = false →
        O.lt (targetRatios old.Item) (O.div (O.ofInt (clickCountsGet s'.clickCounts old.Item))
          (O.ofInt (totalClicks s'.clickCounts))) = false →
        new.Weight = old.Weight) ∧
      |new.Weight - old.Weight| ≤ 1 := by
  have hch := trial_ok O src targetRatios s s' h
  have hadj : s'.choices = s.choices.map
      (adjustWeight O s'.clickCounts targetRatios (totalClicks s'.clickCounts)) := by
    rw [hch]
    simp only [adjustWeights, gt_iff_lt]
    rw [if_pos hpos]
  refine ⟨by rw [hadj, List.length_map], ?_⟩
  intro j old new hold hnew
  rw [hadj, List.getElem?_map, hold, Option.map_some', Option.some.injEq] at hnew
  subst hnew
  have hirr : ∀ a : O.F, O.lt a a = false := by
    intro a
    cases hl : O.lt a a with
    | false => rfl
    | true =>
      have hcontra := O.lt_asymm a a hl
      rw [hl] at hcontra
      exact absurd hcontra (by simp)
  refine ⟨adjustWeight_item _ _ _ _ _, ?_, ?_, ?_, ?_, ?_⟩
  · intro hlt
    rw [adjustWeight_weight, if_pos hlt]
  · intro hgt
    have hnlt := O.lt_asymm _ _ hgt
    rw [adjustWeight_weight, hnlt, hgt]
    simp
  · intro heq
    rw [adjustWeight_weight, heq, hirr]
    simp
  · intro h1 h2
    rw [adjustWeight_weight, h1, h2]
    simp
  · rw [adjustWeight_weight]
    split_ifs <;> simp [abs_le]

/-- Witness of C7: the trial on the dataset of `main` in which B and then A are clicked;
A has click share 1/2 above its target 4/9 and goes from 4 to 3. -/
theorem SimulateClicks_sign_rule_witness :
    trial fracOps mainSource mainTargets ⟨mainChoices, initialClickCounts, 0⟩
      = .ok ⟨[⟨"A", 3⟩, ⟨"B", 1⟩, ⟨"C", 3⟩, ⟨"D", 2⟩],
          [("A", 1), ("B", 1), ("C", 0), ("D", 0)], 6⟩ ∧
    0 < totalClicks [("A", 1), ("B", 1), ("C", 0), ("D", 0)] ∧
    (fracOps.lt (mainTargets "A")
        (fracOps.div (fracOps.ofInt (clickCountsGet [("A", 1), ("B", 1), ("C", 0), ("D", 0)] "A"))
          (fracOps.ofInt (totalClicks [("A", 1), ("B", 1), ("C", 0), ("D", 0)]))) = true →
      (3 : Int) = if (4 : Int) > 1 then 4 - 1 else 4) :=
  ⟨by decide, by decide,
    ((SimulateClicks_sign_rule fracOps mainSource mainTargets
      ⟨mainChoices, initialClickCounts, 0⟩
      ⟨[⟨"A", 3⟩, ⟨"B", 1⟩, ⟨"C", 3⟩, ⟨"D", 2⟩], [("A", 1), ("B", 1), ("C", 0), ("D", 0)], 6⟩
      (by decide) (by decide)).2 0 ⟨"A", 4⟩ ⟨"A", 3⟩ (by decide) (by decide)).2.2.1⟩

/-! ## Claim on the memory written by the ranking generator -/

/-- C9: `GenerateNonRepeatingOffers` leaves its input unchanged. With Go's slices spelled
out, for every heap, every well-formed slice `choices`, every random source and budget:
after the call every backing array that existed before, the caller's one included, holds
what it held (same length, same identifiers in the same order, same weights), so all
removals went to the private copy; and the result is the one computed from the elements
of `choices` alone. -/
theorem GenerateNonRepeatingOffers_input_unchanged (heap : List (List Choice))
    (choices : Slice) (rng : Nat → Int) (fuel : Nat)
    (haddr : choices.addr < heap.length)
    (hlen : choices.len ≤ (heap.getD choices.addr []).length) :
    (∀ a, a < heap.length →
      (GenerateNonRepeatingOffersMem heap choices rng fuel).2[a]? = heap[a]?) ∧
    sliceView (GenerateNonRepeatingOffersMem heap choices rng fuel).2 choices
      = sliceView heap choices ∧
    (GenerateNonRepeatingOffersMem heap choices rng fuel).1
      = GenerateNonRepeatingOffers (sliceView heap choices) rng fuel := by
  have hvlen := sliceView_length heap choices hlen
  have hlast : (heap ++ [sliceView heap choices])[heap.length]?
      = some (sliceView heap choices) := by
    rw [List.getElem?_append_right (Nat.le_refl _)]
    simp
  have hv : sliceView (heap ++ [sliceView heap choices]) ⟨heap.length, choices.len⟩
      = sliceView heap choices := by
    show ((heap ++ [sliceView heap choices]).getD heap.length []).take choices.len
      = sliceView heap choices
    rw [List.getD_eq_getElem?_getD, hlast, Option.getD_some]
    exact List.take_of_length_le (by rw [hvlen])
  have hrun : GenerateNonRepeatingOffersMem heap choices rng fuel
      = offerMemLoop rng fuel
          { heap := heap ++ [sliceView heap choices],
            remainingOffers := ⟨heap.length, choices.len⟩,
            selectedOffers := [], calls := 0 } := by
    simp only [GenerateNonRepeatingOffersMem, copy_of_make heap choices haddr hlen]
    rfl
  obtain ⟨hres, hframe⟩ := offerMemLoop_spec rng fuel
    { heap := heap ++ [sliceView heap choices],
      remainingOffers := ⟨heap.length, choices.len⟩,
      selectedOffers := [], calls := 0 }
    (by simp)
    (by simp only [List.getD_eq_getElem?_getD, hlast, Option.getD_some, hvlen]
        exact Nat.le_refl _)
  have hframe' : ∀ a, a < heap.length →
      (GenerateNonRepeatingOffersMem heap choices rng fuel).2[a]? = heap[a]? := by
    intro a ha
    rw [hrun, hframe a (by simp only; omega)]
    exact List.getElem?_append_left ha
  refine ⟨hframe', ?_, ?_⟩
  · simp only [sliceView, List.getD_eq_getElem?_getD, hframe' choices.addr haddr]
  · rw [hrun, hres]
    simp only [viewState, hv, GenerateNonRepeatingOffers, offerLoopInit]

/-- Witness of C9: a heap with two arrays, the caller's slice on the second one. -/
theorem GenerateNonRepeatingOffers_input_unchanged_witness :
    (1 < [[(⟨"Z", 1⟩ : Choice)], mainChoices].length ∧
      4 ≤ ([[(⟨"Z", 1⟩ : Choice)], mainChoices].getD 1 []).length) ∧
    (GenerateNonRepeatingOffersMem [[⟨"Z", 1⟩], mainChoices] ⟨1, 4⟩ (replay [4, 0, 2, 0]) 4).1
      = .ok ["B", "A", "D", "C"] ∧
    sliceView
      (GenerateNonRepeatingOffersMem [[⟨"Z", 1⟩], mainChoices] ⟨1, 4⟩ (replay [4, 0, 2, 0]) 4).2
      ⟨1, 4⟩ = sliceView [[⟨"Z", 1⟩], mainChoices] ⟨1, 4⟩ :=
  ⟨by decide, by decide,
    (GenerateNonRepeatingOffers_input_unchanged [[⟨"Z", 1⟩], mainChoices] ⟨1, 4⟩
      (replay [4, 0, 2, 0]) 4 (by decide) (by decide)).2.1⟩

/-! ## Further claims on the weighted sampler -/

/-- C15, as stated, fails when the running total wraps around. On the two items A of
weight `2^63 - 1` and B of weight 1, both at least 1, the table of the code is `2^63 - 1`,
`-2^63` and the total is `-2^63`: the second entry and the total are not the sum `2^63`
of the weights, and the table is not increasing. -/
theorem NewWeightedRandomPicker_overflow :
    (∀ c ∈ overflowChoices, 1 ≤ c.Weight) ∧
    NewWeightedRandomPicker overflowChoices
      = ⟨overflowChoices, [9223372036854775807, -9223372036854775808],
          -9223372036854775808⟩ ∧
    (overflowChoices.map Choice.Weight).sum = 9223372036854775808 ∧
    (NewWeightedRandomPicker overflowChoices).total
      ≠ (overflowChoices.map Choice.Weight).sum ∧
    ¬ ((9223372036854775807 : Int) < -9223372036854775808) := by
  refine ⟨by decide, by decide, by decide, by decide, by decide⟩

/-- C15, amended: the cumulative weight table built by `NewWeightedRandomPicker`. For
every list of choices `cumSum` has the length of the list, its entry `i` is the sum of the
weights of the items `0..i` reduced into the range of a 64-bit `int` by wrap-around, and
`total` is the sum of all weights so reduced: the last entry of `cumSum` when the list is
non-empty, 0 when it is empty. When no weight is negative and the weights sum to less than
`2^63`, the entries and the total are these sums themselves; when moreover every weight is
at least 1 the table is strictly increasing. -/
theorem NewWeightedRandomPicker_cumulative_table :
    (∀ choices : List Choice,
      (NewWeightedRandomPicker choices).choices = choices ∧
      (NewWeightedRandomPicker choices).cumSum.length = choices.length ∧
      (∀ i, i < choices.length → (NewWeightedRandomPicker choices).cumSum[i]?
        = some (wrapInt64 (((choices.take (i + 1)).map Choice.Weight).sum))) ∧
      (NewWeightedRandomPicker choices).total
        = wrapInt64 ((choices.map Choice.Weight).sum) ∧
      (choices ≠ [] → (NewWeightedRandomPicker choices).cumSum[choices.length - 1]?
        = some (NewWeightedRandomPicker choices).total)) ∧
    ((NewWeightedRandomPicker []).total = 0 ∧ (NewWeightedRandomPicker []).cumSum = []) ∧
    (∀ choices : List Choice, (∀ c ∈ choices, 0 ≤ c.Weight) →
      (choices.map Choice.Weight).sum < 9223372036854775808 →
      (∀ i, i < choices.length → (NewWeightedRandomPicker choices).cumSum[i]?
        = some (((choices.take (i + 1)).map Choice.Weight).sum)) ∧
      (NewWeightedRandomPicker choices).total = (choices.map Choice.Weight).sum) ∧
    (∀ choices : List Choice, (∀ c ∈ choices, 1 ≤ c.Weight) →
      (choices.map Choice.Weight).sum < 9223372036854775808 →
      ∀ (i j : Nat) (a b : Int), i < j →
        (NewWeightedRandomPicker choices).cumSum[i]? = some a →
        (NewWeightedRandomPicker choices).cumSum[j]? = some b → a < b) := by
  refine ⟨?_, ⟨by simp [NewWeightedRandomPicker, sumLoop],
    by simp [NewWeightedRandomPicker, sumLoop]⟩, ?_, ?_⟩
  · intro choices
    refine ⟨rfl, cumSum_length choices, cumSum_getElem?_wrap choices,
      total_eq_wrap choices, ?_⟩
    intro hne
    have hpos : 0 < choices.length := List.length_pos.2 hne
    rw [cumSum_getElem?_wrap choices (choices.length - 1) (by omega), total_eq_wrap,
      Nat.sub_add_cancel hpos, List.take_length]
  · intro choices h0 hfit
    exact ⟨cumSum_getElem? choices h0 hfit, total_eq choices h0 hfit⟩
  · intro choices h1 hfit i j a b hij ha hb
    have h0 : ∀ c ∈ choices, 0 ≤ c.Weight := fun c hc => by have := h1 c hc; omega
    have hj : j < choices.length := by
      rw [← cumSum_length choices]; exact (List.getElem?_eq_some.1 hb).1
    rw [cumSum_getElem? choices h0 hfit i (by omega)] at ha
    rw [cumSum_getElem? choices h0 hfit j hj] at hb
    simp only [Option.some.injEq] at ha hb
    have := sum_take_add_le choices h1 (i + 1) (j + 1) (by omega) (by omega)
    have hcast : ((j + 1 - (i + 1) : Nat) : Int) = (j : Int) - i := by omega
    omega

/-- Witness of C15 at the dataset of `main`: the entries 4 and 6 at indices 0 and 1. -/
theorem NewWeightedRandomPicker_cumulative_table_witness :
    (∀ c ∈ mainChoices, 1 ≤ c.Weight) ∧
    (mainChoices.map Choice.Weight).sum < 9223372036854775808 ∧
    (NewWeightedRandomPicker mainChoices).cumSum[0]? = some 4 ∧
    (NewWeightedRandomPicker mainChoices).cumSum[1]? = some 6 ∧ (4 : Int) < 6 :=
  ⟨by decide, by decide, by decide, by decide,
    NewWeightedRandomPicker_cumulative_table.2.2.2 mainChoices (by decide) (by decide) 0 1 4 6
      (by decide) (by decide) (by decide)⟩

/-- C16: the empty-string fallback of `Pick` is unreachable under the precondition. For a
working set without negative weights and a draw `r` with `0 ≤ r < total`, where `total` is
the total of the picker as the code computes it, the scan stops at an index of the table,
and the value returned is the identifier of the item at that index, a member of the
working set whose weight is positive; it is the empty string only if that item is named
so. -/
theorem Pick_fallback_unreachable (choices : List Choice)
    (hw : ∀ c ∈ choices, 0 ≤ c.Weight) (r : Int) (h0 : 0 ≤ r)
    (hr : r < (NewWeightedRandomPicker choices).total) :
    choices ≠ [] ∧
    ∃ (k : Nat) (c : Choice), choices[k]? = some c ∧ c ∈ choices ∧ 0 < c.Weight ∧
      Pick (NewWeightedRandomPicker choices) r = .ok c.Item ∧
      (∃ s, (NewWeightedRandomPicker choices).cumSum[k]? = some s ∧ r < s) ∧
      ((∀ d ∈ choices, d.Item ≠ "") →
        Pick (NewWeightedRandomPicker choices) r ≠ .ok "") := by
  refine ⟨total_pos_ne_nil choices (by omega), ?_⟩
  obtain ⟨k, c, hc, hcw, hp, s, hs, hrs⟩ := Pick_pos_weight choices hw r (by omega)
  rw [Int.emod_eq_of_lt h0 hr] at hrs
  refine ⟨k, c, hc, List.getElem?_mem hc, hcw, hp, ⟨s, hs, hrs⟩, ?_⟩
  intro hnames
  rw [hp]
  intro heq
  exact hnames c (List.getElem?_mem hc) (by simpa using heq)

/-- Witness of C16 at the weights 5, `2^63-1`, `2^63-1`, 10, whose running total wraps
around to the total 13, and the draw `r = 8`, which selects D. -/
theorem Pick_fallback_unreachable_witness :
    (∀ c ∈ wrappedChoices, 0 ≤ c.Weight) ∧
    (0 : Int) ≤ 8 ∧ 8 < (NewWeightedRandomPicker wrappedChoices).total ∧
    Pick (NewWeightedRandomPicker wrappedChoices) 8 = .ok "D" ∧
    wrappedChoices ≠ [] ∧
    ∃ (k : Nat) (c : Choice), wrappedChoices[k]? = some c ∧ c ∈ wrappedChoices ∧
      0 < c.Weight ∧
      Pick (NewWeightedRandomPicker wrappedChoices) 8 = .ok c.Item ∧
      (∃ s, (NewWeightedRandomPicker wrappedChoices).cumSum[k]? = some s ∧ 8 < s) ∧
      ((∀ d ∈ wrappedChoices, d.Item ≠ "") →
        Pick (NewWeightedRandomPicker wrappedChoices) 8 ≠ .ok "") :=
  ⟨by decide, by decide, by decide, by decide,
    Pick_fallback_unreachable wrappedChoices (by decide) 8 (by decide) (by decide)⟩

/-! ## Further claims on the ranking generator -/

/-- C17, as stated, fails when the running total wraps around. On the items A of weight
`2^63 - 1`, B of weight 1 and C of weight 0 (unique identifiers, none negative) the first
total of the code is `-2^63`: the sampler fails in the first iteration, on the whole list,
whose total weight is not 0, and the loop never gets to a remainder of total weight 0. -/
theorem GenerateNonRepeatingOffers_zero_weight_overflow :
    (overflowZeroChoices.map Choice.Item).Nodup ∧
    (∀ c ∈ overflowZeroChoices, 0 ≤ c.Weight) ∧
    (∃ z ∈ overflowZeroChoices, z.Weight = 0) ∧
    (NewWeightedRandomPicker overflowZeroChoices).total = -9223372036854775808 ∧
    (overflowZeroChoices.map Choice.Weight).sum = 9223372036854775808 ∧
    offerLoopBody (replay [0, 0, 0]) (offerLoopInit overflowZeroChoices)
      = .error .intnInvalidArgument ∧
    ∀ (k : Nat) (s : OfferLoopState),
      offerLoopAfter (replay [0, 0, 0]) k (offerLoopInit overflowZeroChoices) = some s →
      (NewWeightedRandomPicker s.remainingOffers).total ≠ 0 ∧
      (s.remainingOffers.map Choice.Weight).sum ≠ 0 := by
  refine ⟨by decide, by decide, by decide, by decide, by decide, by decide, ?_⟩
  intro k s h
  have hb : offerLoopBody (replay [0, 0, 0]) (offerLoopInit overflowZeroChoices)
      = .error .intnInvalidArgument := by decide
  cases k with
  | zero =>
    simp only [offerLoopAfter, Option.some.injEq] at h
    subst h
    exact ⟨by decide, by decide⟩
  | succ k =>
    have hlen : (offerLoopInit overflowZeroChoices).remainingOffers.length > 0 := by decide
    simp [offerLoopAfter, hlen, hb] at h

/-- C17, amended: zero-weight items make a full ranking impossible. For a list of choices
with unique identifiers, no negative weight and an item of weight 0, and for every random
source: `GenerateNonRepeatingOffers` returns no ranking, whatever the iteration budget,
and with `len(choices)` iterations or more it stops in `rand.Intn` on an invalid argument;
an item of weight 0 is never picked from a remainder with unique identifiers, no negative
weight and positive total; so the loop reaches, in fewer than `len(choices)` iterations, a
non-empty remainder that still holds every item of weight 0 and whose total is not
positive, where the sampler fails. When the weights sum to less than `2^63` the total
weight of that remainder is 0. -/
theorem GenerateNonRepeatingOffers_zero_weight (choices : List Choice)
    (hnd : (choices.map Choice.Item).Nodup) (h0 : ∀ c ∈ choices, 0 ≤ c.Weight)
    (hz : ∃ z ∈ choices, z.Weight = 0) (rng : Nat → Int) :
    (∀ fuel offers, GenerateNonRepeatingOffers choices rng fuel ≠ .ok offers) ∧
    (∀ fuel, choices.length ≤ fuel →
      GenerateNonRepeatingOffers choices rng fuel = .error .intnInvalidArgument) ∧
    (∃ k s, offerLoopAfter rng k (offerLoopInit choices) = some s ∧ k < choices.length ∧
      s.remainingOffers ≠ [] ∧ (NewWeightedRandomPicker s.remainingOffers).total ≤ 0 ∧
      (∀ z ∈ choices, z.Weight = 0 → z ∈ s.remainingOffers) ∧
      Pick (NewWeightedRandomPicker s.remainingOffers) (rng s.calls)
        = .error .intnInvalidArgument ∧
      ((choices.map Choice.Weight).sum < 9223372036854775808 →
        (NewWeightedRandomPicker s.remainingOffers).total = 0 ∧
        (s.remainingOffers.map Choice.Weight).sum = 0)) ∧
    (∀ (rem : List Choice) (raw : Int), (rem.map Choice.Item).Nodup →
      (∀ c ∈ rem, 0 ≤ c.Weight) → 0 < (NewWeightedRandomPicker rem).total →
      ∀ z ∈ rem, z.Weight = 0 → Pick (NewWeightedRandomPicker rem) raw ≠ .ok z.Item) := by
  obtain ⟨k, s, hafter, hk, hne, htot, hsub, hsum, hzs⟩ :=
    zero_weight_stuck rng choices.length (offerLoopInit choices) (Nat.le_refl _) hnd h0 hz
  obtain ⟨hpick, _, _⟩ := offerLoop_stuck rng s hne htot
  refine ⟨?_, ?_, ⟨k, s, hafter, hk, hne, htot, hzs, hpick, ?_⟩, ?_⟩
  · intro fuel offers
    rcases (zero_weight_no_ranking rng fuel (offerLoopInit choices) hnd h0 hz).1 with h | h <;>
      simp [GenerateNonRepeatingOffers, h]
  · intro fuel hfuel
    have := (zero_weight_no_ranking rng fuel (offerLoopInit choices) hnd h0 hz).2 hfuel
    simp [GenerateNonRepeatingOffers, this]
  · intro hfit
    have hs0 : ∀ c ∈ s.remainingOffers, 0 ≤ c.Weight := fun c hc => h0 c (hsub c hc)
    have hsfit : (s.remainingOffers.map Choice.Weight).sum < 9223372036854775808 := by
      simp only [offerLoopInit] at hsum
      omega
    have heq := total_eq s.remainingOffers hs0 hsfit
    have hnn := sum_weights_nonneg s.remainingOffers hs0
    constructor <;> omega
  · intro rem raw hndr hr0 hpos z hzm hzw hp
    obtain ⟨j, c, hc, hcw, hpc, _⟩ := Pick_pos_weight rem hr0 raw hpos
    rw [hpc] at hp
    have heq : c.Item = z.Item := by simpa using hp
    have := List.inj_on_of_nodup_map hndr (List.getElem?_mem hc) hzm heq
    rw [this] at hcw
    omega

/-- Witness of C17: the dataset of `main` with the weight of C set to 0; after three
iterations the remainder is C alone and `rand.Intn(0)` faults. -/
theorem GenerateNonRepeatingOffers_zero_weight_witness :
    (([⟨"A", 4⟩, ⟨"B", 2⟩, ⟨"C", 0⟩, ⟨"D", 1⟩] : List Choice).map Choice.Item).Nodup ∧
    (∀ c ∈ ([⟨"A", 4⟩, ⟨"B", 2⟩, ⟨"C", 0⟩, ⟨"D", 1⟩] : List Choice), 0 ≤ c.Weight) ∧
    (∃ z ∈ ([⟨"A", 4⟩, ⟨"B", 2⟩, ⟨"C", 0⟩, ⟨"D", 1⟩] : List Choice), z.Weight = 0) ∧
    GenerateNonRepeatingOffers [⟨"A", 4⟩, ⟨"B", 2⟩, ⟨"C", 0⟩, ⟨"D", 1⟩]
      (replay [4, 0, 2, 0]) 4 = .error .intnInvalidArgument :=
  ⟨by decide, by decide, by decide,
    (GenerateNonRepeatingOffers_zero_weight [⟨"A", 4⟩, ⟨"B", 2⟩, ⟨"C", 0⟩, ⟨"D", 1⟩]
      (by decide) (by decide) (by decide) (replay [4, 0, 2, 0])).2.1 4 (by decide)⟩

/-! ## Claims on the trial -/

/-- C18, as stated, fails when the running total wraps around. On the two items A of
weight `2^63 - 1` and B of weight 1, both at least 1, the trial has no ranking to read
from: `GenerateNonRepeatingOffers` stops in `rand.Intn` and so does the trial, before the
first-ranked identifier is read. -/
theorem trial_overflow :
    2 ≤ overflowChoices.length ∧ (∀ c ∈ overflowChoices, 1 ≤ c.Weight) ∧
    GenerateNonRepeatingOffers overflowChoices (fun k => mainSource.intn (0 + k))
      overflowChoices.length = .error .intnInvalidArgument ∧
    trial fracOps mainSource mainTargets ⟨overflowChoices, initialClickCounts, 0⟩
      = .error .intnInvalidArgument := by
  refine ⟨by decide, by decide, by decide, by decide⟩

/-- C18, amended: the top-two access of a trial of `SimulateClicks` is in bounds exactly
for lists of at least two items, when the running total does not wrap. A ranking that
`GenerateNonRepeatingOffers` returns has as many entries as the list, hence a first and a
second entry when the list has two or more. On a list of two or more items whose weights
are all at least 1 and sum to less than `2^63` the ranking is returned and the trial
completes, for every random source. On a one-item list (weight at least 1, below `2^63`)
the ranking has one entry: the trial faults with an index out of range when the first
click is recorded, and completes otherwise. On the empty list the ranking is empty and
the read of its first entry is out of range. -/
theorem SimulateClicks_top_two_access (O : Float64Ops) (src : RandSource O)
    (targetRatios : String → O.F) :
    (∀ (s : SimState) (offerList : List String), 2 ≤ s.choices.length →
      GenerateNonRepeatingOffers s.choices (fun k => src.intn (s.calls + k))
        s.choices.length = .ok offerList →
      offerList.length = s.choices.length ∧
      ∃ first second, offerList[0]? = some first ∧ offerList[1]? = some second) ∧
    (∀ s : SimState, 2 ≤ s.choices.length → (∀ c ∈ s.choices, 1 ≤ c.Weight) →
      (s.choices.map Choice.Weight).sum < 9223372036854775808 →
      ∃ offerList first second,
        GenerateNonRepeatingOffers s.choices (fun k => src.intn (s.calls + k))
          s.choices.length = .ok offerList ∧
        offerList[0]? = some first ∧ offerList[1]? = some second ∧
        ∃ s', trial O src targetRatios s = .ok s') ∧
    (∀ (s : SimState) (c : Choice), s.choices = [c] → 1 ≤ c.Weight →
      c.Weight < 9223372036854775808 →
      GenerateNonRepeatingOffers s.choices (fun k => src.intn (s.calls + k))
        s.choices.length = .ok [c.Item] ∧
      ([c.Item] : List String)[1]? = none ∧
      (O.lt (src.float64 (s.calls + 1)) O.lit03 = true →
        trial O src targetRatios s = .error .indexOutOfRange) ∧
      (O.lt (src.float64 (s.calls + 1)) O.lit03 = false →
        ∃ s', trial O src targetRatios s = .ok s')) ∧
    (∀ s : SimState, s.choices = [] →
      GenerateNonRepeatingOffers s.choices (fun k => src.intn (s.calls + k))
        s.choices.length = .ok [] ∧
      ([] : List String)[0]? = none ∧
      trial O src targetRatios s = .error .indexOutOfRange) := by
  have hlength : ∀ (s : SimState) (offerList : List String),
      GenerateNonRepeatingOffers s.choices (fun k => src.intn (s.calls + k))
        s.choices.length = .ok offerList →
      offerList.Perm (s.choices.map Choice.Item) := by
    intro s offerList hg
    unfold GenerateNonRepeatingOffers at hg
    cases hl : offerLoop (fun k => src.intn (s.calls + k)) s.choices.length
        (offerLoopInit s.choices) with
    | error e => simp [hl] at hg
    | ok s' =>
      simp only [hl, Except.ok.injEq] at hg
      obtain ⟨_, _, suffix, hsuf, hperm⟩ := offerLoop_ok _ _ _ s' hl
      simp only [offerLoopInit, List.nil_append] at hsuf hperm
      rw [← hg, hsuf]
      exact hperm
  refine ⟨?_, ?_, ?_, ?_⟩
  · intro s offerList h2 hg
    have hlen : offerList.length = s.choices.length := by
      rw [(hlength s offerList hg).length_eq, List.length_map]
    exact ⟨hlen, offerList[0], offerList[1], List.getElem?_eq_getElem (by omega),
      List.getElem?_eq_getElem (by omega)⟩
  · intro s h2 h1 hfit
    obtain ⟨offers, hg, hlen⟩ := GenerateNonRepeatingOffers_length s.choices h1 hfit
      (fun k => src.intn (s.calls + k)) s.choices.length (Nat.le_refl _)
    have hf : offers[0]? = some offers[0] := List.getElem?_eq_getElem (by omega)
    have hs : offers[1]? = some offers[1] := List.getElem?_eq_getElem (by omega)
    refine ⟨offers, offers[0], offers[1], hg, hf, hs, ?_⟩
    simp only [trial, hg, recordClicks_two O src offers s.clickCounts _ _ _ hf hs]
    split_ifs <;> exact ⟨_, rfl⟩
  · intro s c hc h1 hmax
    have h1' : ∀ d ∈ s.choices, 1 ≤ d.Weight := by
      intro d hd
      rw [hc] at hd
      rw [List.mem_singleton.1 hd]
      exact h1
    have hfit : (s.choices.map Choice.Weight).sum < 9223372036854775808 := by
      rw [hc]
      simpa using hmax
    obtain ⟨offers, hg, hlen⟩ := GenerateNonRepeatingOffers_length s.choices h1' hfit
      (fun k => src.intn (s.calls + k)) s.choices.length (Nat.le_refl _)
    have hmem : ∀ x ∈ offers, x = c.Item := by
      intro x hx
      have hp := hlength s offers hg
      rw [hc] at hp
      exact List.mem_singleton.1 (hp.subset hx)
    have hoffers : offers = [c.Item] := by
      rw [hc] at hlen
      match offers, hlen, hmem with
      | [x], _, hmem => rw [hmem x (by simp)]
    rw [hoffers] at hg
    refine ⟨hg, rfl, ?_, ?_⟩
    · intro hlt
      simp [trial, hg, recordClicks_one, hlt]
    · intro hlt
      simp [trial, hg, recordClicks_one, hlt]
  · intro s hc
    have hg : GenerateNonRepeatingOffers s.choices (fun k => src.intn (s.calls + k))
        s.choices.length = .ok [] := by
      rw [hc]
      rfl
    refine ⟨hg, rfl, ?_⟩
    simp [trial, hg, recordClicks]

/-- Witness of C18: a trial on the dataset of `main`, a trial on the one-item list A whose
first click is recorded, and a trial on the empty list. -/
theorem SimulateClicks_top_two_access_witness :
    (2 ≤ mainChoices.length ∧ (∀ c ∈ mainChoices, 1 ≤ c.Weight) ∧
      (mainChoices.map Choice.Weight).sum < 9223372036854775808) ∧
    (∃ offerList first second,
      GenerateNonRepeatingOffers mainChoices (fun k => mainSource.intn (0 + k))
        mainChoices.length = .ok offerList ∧
      offerList[0]? = some first ∧ offerList[1]? = some second ∧
      ∃ s', trial fracOps mainSource mainTargets ⟨mainChoices, initialClickCounts, 0⟩
        = .ok s') ∧
    (fracOps.lt (mainSource.float64 (3 + 1)) fracOps.lit03 = true ∧
      trial fracOps mainSource mainTargets ⟨[⟨"A", 4⟩], initialClickCounts, 3⟩
        = .error .indexOutOfRange) ∧
    trial fracOps mainSource mainTargets ⟨[], initialClickCounts, 0⟩
      = .error .indexOutOfRange :=
  ⟨⟨by decide, by decide, by decide⟩,
    (SimulateClicks_top_two_access fracOps mainSource mainTargets).2.1
      ⟨mainChoices, initialClickCounts, 0⟩ (by decide) (by decide) (by decide),
    ⟨by decide,
      ((SimulateClicks_top_two_access fracOps mainSource mainTargets).2.2.1
        ⟨[⟨"A", 4⟩], initialClickCounts, 3⟩ ⟨"A", 4⟩ rfl (by decide) (by decide)).2.2.1
        (by decide)⟩,
    ((SimulateClicks_top_two_access fracOps mainSource mainTargets).2.2.2
      ⟨[], initialClickCounts, 0⟩ rfl).2.2⟩

/-- C13: click counters are monotonically non-decreasing. For every trial of
`SimulateClicks` and every identifier the counter after the trial is at least the counter
before it, non-negative counters stay non-negative, and the sum of all counters grows by
at most 2; in a run the counters start at 0, so they are non-negative at the end, and
their sum is at most twice the number of trials. -/
theorem SimulateClicks_counters_monotone (O : Float64Ops) (src : RandSource O)
    (targetRatios : String → O.F) :
    (∀ s s' : SimState, trial O src targetRatios s = .ok s' →
      (∀ key, clickCountsGet s.clickCounts key ≤ clickCountsGet s'.clickCounts key) ∧
      ((∀ key, 0 ≤ clickCountsGet s.clickCounts key) →
        ∀ key, 0 ≤ clickCountsGet s'.clickCounts key) ∧
      sumCounters s.clickCounts ≤ sumCounters s'.clickCounts ∧
      sumCounters s'.clickCounts ≤ sumCounters s.clickCounts + 2) ∧
    (∀ (choices : List Choice) (iterations : Int) (final : SimState),
      SimulateClicks O src choices targetRatios iterations = .ok final →
      (∀ key, 0 ≤ clickCountsGet final.clickCounts key) ∧
      0 ≤ sumCounters final.clickCounts ∧
      sumCounters final.clickCounts ≤ 2 * (iterations.toNat : Int)) := by
  constructor
  · intro s s' h
    obtain ⟨h1, h2, h3⟩ := trial_counters O src targetRatios s s' h
    exact ⟨h1, fun h0 key => Int.le_trans (h0 key) (h1 key), h2, h3⟩
  · intro choices iterations final h
    obtain ⟨h1, h2, h3⟩ := trialLoop_counters O src targetRatios _ _ final h
    have hsum : sumCounters initialClickCounts = 0 := by decide
    simp only [hsum] at h2 h3
    refine ⟨?_, h2, by omega⟩
    intro key
    have := h1 key
    simp only [clickCountsGet_initial] at this
    exact this

/-- Witness of C13: the trial on the dataset of `main` in which B and then A are
clicked. -/
theorem SimulateClicks_counters_monotone_witness :
    trial fracOps mainSource mainTargets ⟨mainChoices, initialClickCounts, 0⟩
      = .ok ⟨[⟨"A", 3⟩, ⟨"B", 1⟩, ⟨"C", 3⟩, ⟨"D", 2⟩],
          [("A", 1), ("B", 1), ("C", 0), ("D", 0)], 6⟩ ∧
    sumCounters [("A", 1), ("B", 1), ("C", 0), ("D", 0)]
      ≤ sumCounters initialClickCounts + 2 :=
  ⟨by decide,
    ((SimulateClicks_counters_monotone fracOps mainSource mainTargets).1
      ⟨mainChoices, initialClickCounts, 0⟩
      ⟨[⟨"A", 3⟩, ⟨"B", 1⟩, ⟨"C", 3⟩, ⟨"D", 2⟩], [("A", 1), ("B", 1), ("C", 0), ("D", 0)], 6⟩
      (by decide)).2.2.2⟩

/-- C14: the click recording of one trial, as a function of the ranking and the two
uniform draws `u1`, `u2`. On a ranking with a first and a second entry the recording
completes; if `u1 < 0.3` does not hold no counter changes; otherwise the counter of the
first entry is raised by 1, and that of the second entry by 1 as well exactly when
`u2 < 0.5`. Every counter is its old value, plus 1 if it is the first entry's and
`u1 < 0.3`, plus 1 if it is the second entry's and `u1 < 0.3` and `u2 < 0.5`: no other
identifier is touched, and no second click is recorded without the first. A trial records
its clicks in this way on its own ranking. -/
theorem SimulateClicks_click_recording (O : Float64Ops) (src : RandSource O) :
    (∀ (offerList : List String) (clickCounts : List (String × Int)) (calls : Nat)
      (first second : String),
      offerList[0]? = some first → offerList[1]? = some second →
      ∃ clickCounts' calls',
        recordClicks O src offerList clickCounts calls = .ok (clickCounts', calls') ∧
        (O.lt (src.float64 calls) O.lit03 = false → clickCounts' = clickCounts) ∧
        ∀ key, clickCountsGet clickCounts' key = clickCountsGet clickCounts key
          + (if O.lt (src.float64 calls) O.lit03 = true ∧ key = first then 1 else 0)
          + (if O.lt (src.float64 calls) O.lit03 = true ∧
                O.lt (src.float64 (calls + 1)) O.lit05 = true ∧ key = second
              then 1 else 0)) ∧
    (∀ (targetRatios : String → O.F) (s s' : SimState),
      trial O src targetRatios s = .ok s' →
      ∃ offerList,
        GenerateNonRepeatingOffers s.choices (fun k => src.intn (s.calls + k))
          s.choices.length = .ok offerList ∧
        recordClicks O src offerList s.clickCounts (s.calls + offerList.length)
          = .ok (s'.clickCounts, s'.calls)) := by
  constructor
  · intro offerList cc calls first second hf hs
    rw [recordClicks_two O src offerList cc calls first second hf hs]
    cases h1 : O.lt (src.float64 calls) O.lit03 with
    | false =>
      refine ⟨cc, calls + 1, by simp, fun _ => rfl, ?_⟩
      intro key
      simp
    | true =>
      cases h2 : O.lt (src.float64 (calls + 1)) O.lit05 with
      | false =>
        refine ⟨clickCountsIncr cc first, calls + 2, by simp, by simp, ?_⟩
        intro key
        rw [clickCountsGet_incr]
        simp
      | true =>
        refine ⟨clickCountsIncr (clickCountsIncr cc first) second, calls + 2, by simp,
          by simp, ?_⟩
        intro key
        rw [clickCountsGet_incr, clickCountsGet_incr]
        simp
  · intro targetRatios s s' h
    exact trial_clicks O src targetRatios s s' h

/-- Witness of C14: the ranking [B, A, D, C] with `u1 = 1/10` and `u2 = 1/5`, both clicks
recorded. -/
theorem SimulateClicks_click_recording_witness :
    (["B", "A", "D", "C"] : List String)[0]? = some "B" ∧
    (["B", "A", "D", "C"] : List String)[1]? = some "A" ∧
    recordClicks fracOps mainSource ["B", "A", "D", "C"] initialClickCounts 4
      = .ok ([("A", 1), ("B", 1), ("C", 0), ("D", 0)], 6) ∧
    ∃ clickCounts' calls',
      recordClicks fracOps mainSource ["B", "A", "D", "C"] initialClickCounts 4
        = .ok (clickCounts', calls') ∧
      (fracOps.lt (mainSource.float64 4) fracOps.lit03 = false →
        clickCounts' = initialClickCounts) ∧
      ∀ key, clickCountsGet clickCounts' key = clickCountsGet initialClickCounts key
        + (if fracOps.lt (mainSource.float64 4) fracOps.lit03 = true ∧ key = "B"
            then 1 else 0)
        + (if fracOps.lt (mainSource.float64 4) fracOps.lit03 = true ∧
              fracOps.lt (mainSource.float64 (4 + 1)) fracOps.lit05 = true ∧ key = "A"
            then 1 else 0) :=
  ⟨by decide, by decide, by decide,
    (SimulateClicks_click_recording fracOps mainSource).1 ["B", "A", "D", "C"]
      initialClickCounts 4 "B" "A" (by decide) (by decide)⟩

/-! ## The hard-coded total of clicks -/

/-- C11, at a failing input: two trials on the list A, E. E is ranked first in both and
clicked in both, A is clicked once. The run ends with `totalClicks = 1`, which adds up the
counters of A, B, C, D only, while the counter of E is 2: the final ratio reported for E
is 2/1, above 1. -/
theorem SimulateClicks_final_ratio_above_one :
    SimulateClicks fracOps untrackedSource untrackedChoices mainTargets 2
      = .ok ⟨[⟨"A", 1⟩, ⟨"E", 1⟩],
          [("A", 1), ("B", 0), ("C", 0), ("D", 0), ("E", 2)], 8⟩ ∧
    totalClicks [("A", 1), ("B", 0), ("C", 0), ("D", 0), ("E", 2)] = 1 ∧
    clickCountsGet [("A", 1), ("B", 0), ("C", 0), ("D", 0), ("E", 2)] "E" = 2 ∧
    ¬ (clickCountsGet [("A", 1), ("B", 0), ("C", 0), ("D", 0), ("E", 2)] "E"
        ≤ totalClicks [("A", 1), ("B", 0), ("C", 0), ("D", 0), ("E", 2)]) ∧
    finalRatios fracOps ⟨[⟨"A", 1⟩, ⟨"E", 1⟩],
        [("A", 1), ("B", 0), ("C", 0), ("D", 0), ("E", 2)], 8⟩ = [(1, 1), (2, 1)] ∧
    fracOps.lt (fracOps.ofInt 1) (2, 1) = true := by
  refine ⟨by decide, by decide, by decide, by decide, rfl, by decide⟩

/-- C12, at a failing input: one trial on the list A, E in which E, ranked first, and A
are clicked. Afterwards E has a counter, equal to 1, and the sum of all counters is 2,
but `totalClicks`, which adds up the counters of A, B, C, D only, is 1. -/
theorem totalClicks_misses_untracked :
    trial fracOps untrackedSource mainTargets ⟨untrackedChoices, initialClickCounts, 0⟩
      = .ok ⟨[⟨"A", 1⟩, ⟨"E", 1⟩],
          [("A", 1), ("B", 0), ("C", 0), ("D", 0), ("E", 1)], 4⟩ ∧
    clickCountsGet [("A", 1), ("B", 0), ("C", 0), ("D", 0), ("E", 1)] "E" = 1 ∧
    sumCounters [("A", 1), ("B", 0), ("C", 0), ("D", 0), ("E", 1)] = 2 ∧
    totalClicks [("A", 1), ("B", 0), ("C", 0), ("D", 0), ("E", 1)] = 1 ∧
    totalClicks [("A", 1), ("B", 0), ("C", 0), ("D", 0), ("E", 1)]
      ≠ sumCounters [("A", 1), ("B", 0), ("C", 0), ("D", 0), ("E", 1)] := by
  refine ⟨by decide, by decide, by decide, by decide, by decide⟩

end RandomPicker
